import Mathlib

/-!
# Verification of the YouTube data-acquisition layer

A shallow embedding of the video data acquisition and caching engine of the
plugin (the `YouTubeService` façade in `src/services/youtube.ts`, the summary
cache of `src/services/video-analysis.ts`, and the `getVideoId` utility of
`src/components/media-frame.tsx`), together with proofs about it.

Conventions of the embedding:
* JavaScript numbers appearing in parsed caption attributes are modelled as
  `JSNum := Option ℚ`, with `none` standing for `NaN` (decimal caption
  attribute values and the factor 1000 are exact in `ℚ`).
* Timestamps (`Date.now()`) are natural numbers of milliseconds.  JavaScript
  computes `now - ts` with signed arithmetic; every comparison the code
  performs on such differences (`> expiry`, `< expiry`) gives the same verdict
  under truncated `Nat` subtraction when `ts > now`, so `Nat` is used.
* Behaviour of external libraries (the HTML parser, `JSON.parse`, the
  DOM-based HTML-entity decoder, the network primitive, and the regexes that
  live in `src/constants.ts`, a file not part of the snapshot) is abstracted
  into an environment record `Ext`; all control flow, string slicing, track
  selection and cache logic of the repository itself is embedded concretely.
* Promise rejection is modelled with `Except String`; a function that the
  source can reject is embedded as a function into `Except`.
-/

namespace YT

/-! ## JavaScript numeric model -/

/-- A JavaScript number restricted to the values producible by `parseFloat`
on caption attributes: either `NaN` (modelled `none`) or an exact rational. -/
abbrev JSNum := Option ℚ

/-- JavaScript multiplication by a (non-NaN) constant: `NaN * c = NaN`. -/
def jsMul (x : JSNum) (c : ℚ) : JSNum := x.map (· * c)

/-- JavaScript whitespace accepted by `parseFloat` before the number. -/
def isJsSpace (c : Char) : Bool :=
  c = ' ' ∨ c = '\t' ∨ c = '\n' ∨ c = '\r'

/-- Numeric value of a decimal digit character. -/
def digitVal (c : Char) : ℕ := c.toNat - '0'.toNat

/-- Value of a list of decimal digit characters read left to right. -/
def digitsVal (l : List Char) : ℕ :=
  l.foldl (fun acc c => acc * 10 + digitVal c) 0

/-- The exponent part accepted by `parseFloat`: `e`/`E`, optional sign,
digits.  A trailing exponent marker without digits is ignored (as in
`parseFloat("1e") = 1`). -/
def parseExp (cs : List Char) : Int :=
  match cs with
  | 'e' :: rest | 'E' :: rest =>
    match rest with
    | '-' :: ds => if (ds.takeWhile Char.isDigit) = [] then 0
                   else -(digitsVal (ds.takeWhile Char.isDigit) : Int)
    | '+' :: ds => (digitsVal (ds.takeWhile Char.isDigit) : Int)
    | ds => (digitsVal (ds.takeWhile Char.isDigit) : Int)
  | _ => 0

/-- Model of JavaScript `parseFloat`: skip leading whitespace, read an
optional sign, a decimal mantissa and an optional exponent, ignore any
trailing garbage; if no digit is found the result is `NaN`.  (The `Infinity`
literal, irrelevant to caption attributes, is not modelled.) -/
def parseFloat (s : String) : JSNum :=
  let cs := s.toList.dropWhile isJsSpace
  let (sign, cs) : ℚ × List Char :=
    match cs with
    | '-' :: rest => (-1, rest)
    | '+' :: rest => (1, rest)
    | _ => (1, cs)
  let ip := cs.takeWhile Char.isDigit
  let cs' := cs.dropWhile Char.isDigit
  let (fp, rest) : List Char × List Char :=
    match cs' with
    | '.' :: t => (t.takeWhile Char.isDigit, t.dropWhile Char.isDigit)
    | _ => ([], cs')
  if ip = [] ∧ fp = [] then none
  else
    let mant : ℚ := (digitsVal ip : ℚ) + (digitsVal fp : ℚ) / (10 : ℚ) ^ fp.length
    some (sign * mant * (10 : ℚ) ^ parseExp rest)

/-! ## String utilities mirroring the JavaScript string methods used -/

/-- Index of the first occurrence of `pat` in `hay` at position ≥ the given
accumulator offset; `none` models JavaScript's `-1`. -/
def idxOfAux (pat : List Char) : List Char → ℕ → Option ℕ
  | [], i => if pat = [] then some i else none
  | c :: t, i => if pat.isPrefixOf (c :: t) then some i else idxOfAux pat t (i + 1)

/-- `s.indexOf(pat)` on strings (`none` for JavaScript's `-1`). -/
def strIndexOf (s pat : String) : Option ℕ :=
  idxOfAux pat.toList s.toList 0

/-- `s.indexOf(pat, start)` on strings. -/
def strIndexOfFrom (s pat : String) (start : ℕ) : Option ℕ :=
  (idxOfAux pat.toList (s.toList.drop start) 0).map (· + start)

/-- `s.includes(pat)`. -/
def strIncludes (s pat : String) : Bool :=
  (strIndexOf s pat).isSome

/-- `s.slice(start, end)` for `0 ≤ start`: the (possibly empty) substring from
`start` (inclusive) to `end` (exclusive). -/
def strSlice (s : String) (start stop : ℕ) : String :=
  String.mk ((s.toList.drop start).take (stop - start))

/-- `s.startsWith(pre)`. -/
def strStartsWith (s pre : String) : Bool :=
  pre.toList.isPrefixOf s.toList

end YT

namespace YT

/-! ## Data model (from `src/types` and the shapes used in `youtube.ts`) -/

/-- One entry of `data.captions.playerCaptionsTracklistRenderer.captionTracks`,
restricted to the two fields the service reads. -/
structure CaptionTrack where
  languageCode : String
  baseUrl : String
deriving DecidableEq, Repr

/-- One `<text>` cue element of a caption XML payload, as exposed by the HTML
parser: its text content and its `dur` / `start` attributes (`none` when the
attribute is absent). -/
structure Cue where
  textContent : String
  dur : Option String
  start : Option String
deriving DecidableEq, Repr

/-- `TranscriptLine` of `src/types`. -/
structure TranscriptLine where
  text : String
  duration : JSNum
  offset : JSNum
deriving DecidableEq, Repr

/-- `TranscriptResponse` of `src/types` (the result of `fetchTranscript`). -/
structure TranscriptResponse where
  url : String
  videoId : String
  title : String
  author : String
  channelUrl : String
  lines : List TranscriptLine
deriving DecidableEq, Repr

/-- Environment of behaviours external to the repository's own code:
the regexes of `src/constants.ts` (a file not present in the snapshot),
`node-html-parser`, `JSON.parse`, the DOM-based entity decoder and the
network request primitive.  `fetch url` is the settlement of
`queueRequest(url)`. -/
structure Ext where
  /-- `extractMatch(url, VIDEO_ID_REGEX)` (regex lives in missing `constants.ts`). -/
  videoIdOf : String → Option String
  /-- `extractMatch(body, TITLE_REGEX)`. -/
  titleOf : String → Option String
  /-- `extractMatch(body, AUTHOR_REGEX)`. -/
  authorOf : String → Option String
  /-- `extractMatch(body, CHANNEL_ID_REGEX)`. -/
  channelIdOf : String → Option String
  /-- Text contents of the `<script>` elements of `parse(pageBody)`, in document order. -/
  getScripts : String → List String
  /-- `JSON.parse` projected onto
  `data?.captions?.playerCaptionsTracklistRenderer?.captionTracks || []`;
  `none` models a parse exception. -/
  jsonParse : String → Option (List CaptionTrack)
  /-- The `<text>` elements of `parse(captionsXML)`; `none` models an exception
  inside the `try` of `parseCaptions`. -/
  getCues : String → Option (List Cue)
  /-- `decodeHTML` (entity replacement plus DOM textarea decoding). -/
  decode : String → String
  /-- Settlement of `queueRequest(url, _)`: response body or rejection message. -/
  fetch : String → Except String String

/-! ## `parseCaptions` (youtube.ts lines 586–608) -/

/-- JavaScript `a || d` on an attribute lookup: `undefined` (absent) and the
empty string are falsy. -/
def jsOrDefault (a : Option String) (d : String) : String :=
  match a with
  | none => d
  | some s => if s = "" then d else s

/-- `parseFloat(attr || '0') * 1000` — the duration/offset computation of one cue. -/
def attrMs (a : Option String) : JSNum :=
  jsMul (parseFloat (jsOrDefault a "0")) 1000

/-- `YouTubeService.parseCaptions`: map every `<text>` element to a
`TranscriptLine`; the surrounding `try/catch` returns `[]` if the XML parser
throws. -/
def parseCaptions (ext : Ext) (captionsXML : String) : List TranscriptLine :=
  match ext.getCues captionsXML with
  | none => []
  | some cues =>
    cues.map fun cue =>
      { text := ext.decode cue.textContent
        duration := attrMs cue.dur
        offset := attrMs cue.start }

/-! ## Caption track selection and `extractCaptions` (youtube.ts lines 517–580) -/

/-- The embedded player-response marker searched for in each script. -/
def marker : String := "var ytInitialPlayerResponse = "

/-- The slice
`content.slice(start, end)` with `start` past the marker and `end` one past
the next brace-semicolon terminator
of the first marker-bearing script (with JavaScript's `-1 + 1 = 0` when the
terminator is absent). -/
def playerDataString (content : String) : String :=
  match strIndexOf content marker with
  | none => ""
  | some i =>
    let start := i + marker.length
    let stop := match strIndexOfFrom content "\x7d;" start with
      | none => 0
      | some j => j + 1
    strSlice content start stop

/-- Track selection of `extractCaptions`: exact language-code match, then
substring match, then first track; `if (langCode)` skips both matches for the
empty language code.  `none` leads to the `'No captions available'` error. -/
def selectTrack (captionTracks : List CaptionTrack) (langCode : String) : Option CaptionTrack :=
  let captionTrack :=
    if langCode ≠ "" then
      match captionTracks.find? (fun t => t.languageCode = langCode) with
      | some t => some t
      | none => captionTracks.find? (fun t => strIncludes t.languageCode langCode)
    else none
  captionTrack <|> captionTracks.head?

/-- `YouTubeService.extractCaptions`, paired with the list of URLs it fetched
through the request queue (for counting network fetches). -/
def extractCaptionsRun (ext : Ext) (pageBody langCode : String) :
    Except String String × List String :=
  match (ext.getScripts pageBody).find? (fun c => strIncludes c marker) with
  | none => (.error "Failed to find player data", [])
  | some content =>
    match ext.jsonParse (playerDataString content) with
    | none => (.error "Failed to parse caption data", [])
    | some captionTracks =>
      match selectTrack captionTracks langCode with
      | none => (.error "No captions available", [])
      | some track =>
        let captionsUrl :=
          if strStartsWith track.baseUrl "https://" then track.baseUrl
          else "https://www.youtube.com" ++ track.baseUrl
        match ext.fetch captionsUrl with
        | .ok xml => (.ok xml, [captionsUrl])
        | .error e => (.error e, [captionsUrl])

end YT

namespace YT

/-! ## Cache layer (youtube.ts lines 103–184, video-analysis.ts lines 44–124)

A JavaScript object used as a map is embedded as an association list in key
insertion order (`Object.keys` enumerates string keys in that order); its keys
are unique, expressed by `NoDupKeys` where needed. -/

/-- `{ data, timestamp }` — one cache entry. -/
structure CacheEntry (α : Type) where
  data : α
  timestamp : ℕ
deriving DecidableEq, Repr

/-- A cache table: entries in key insertion order. -/
abbrev Cache (α : Type) := List (String × CacheEntry α)

/-- Key uniqueness invariant of a JavaScript object. -/
def NoDupKeys {α : Type} (c : Cache α) : Prop :=
  (c.map Prod.fst).Nodup

/-- `cache[key]` read. -/
def lookup {α : Type} (c : Cache α) (k : String) : Option (CacheEntry α) :=
  (c.find? (fun p => p.1 = k)).map Prod.snd

/-- `cache[key] = e` write: updates an existing key in place, appends a new
key at the end (JavaScript property-assignment order semantics). -/
def setEntry {α : Type} (c : Cache α) (k : String) (e : CacheEntry α) : Cache α :=
  if c.any (fun p => p.1 = k) then
    c.map (fun p => if p.1 = k then (k, e) else p)
  else c ++ [(k, e)]

/-- The comparator `(a, b) => cache[a].timestamp - cache[b].timestamp`,
as the total preorder "older or equally old". -/
def tsLe {α : Type} (a b : String × CacheEntry α) : Prop :=
  a.2.timestamp ≤ b.2.timestamp

instance {α : Type} : DecidableRel (@tsLe α) := fun a b =>
  inferInstanceAs (Decidable (a.2.timestamp ≤ b.2.timestamp))

instance {α : Type} : IsTotal (String × CacheEntry α) tsLe :=
  ⟨fun a b => Nat.le_total a.2.timestamp b.2.timestamp⟩

instance {α : Type} : IsTrans (String × CacheEntry α) tsLe :=
  ⟨fun _ _ _ h h' => Nat.le_trans h h'⟩

/-- First phase of `cleanCache`: delete every entry whose age exceeds the
expiry window (strictly — an entry of age exactly `expiry` survives). -/
def cacheExpire {α : Type} (expiry now : ℕ) (c : Cache α) : Cache α :=
  c.filter (fun p => ¬ now - p.2.timestamp > expiry)

/-- Second phase of `cleanCache`: if the table still exceeds its max-entry
bound, sort the keys by timestamp ascending (JavaScript's `sort` is stable,
embedded as Mathlib's stable `insertionSort`) and delete the first
`size − bound` of them. -/
def cacheTrim {α : Type} (bound : ℕ) (c : Cache α) : Cache α :=
  if c.length > bound then
    let sortedKeys := (c.insertionSort tsLe).map Prod.fst
    let keysToRemove := sortedKeys.take (c.length - bound)
    c.filter (fun p => ¬ p.1 ∈ keysToRemove)
  else c

/-- `cleanCache`, generic in the expiry window and max-entry bound (the two
services' `cleanCache` bodies are this logic with their own constants). -/
def cleanCacheG {α : Type} (expiry bound now : ℕ) (c : Cache α) : Cache α :=
  cacheTrim bound (cacheExpire expiry now c)

/-- `YouTubeService.CACHE_EXPIRY_MS` (30 minutes). -/
def CACHE_EXPIRY_MS : ℕ := 30 * 60 * 1000

/-- `YouTubeService`'s `MAX_CACHE_ENTRIES`. -/
def MAX_CACHE_ENTRIES : ℕ := 100

/-- `YouTubeService.cleanCache` on the video-data table. -/
def cleanCache {α : Type} (now : ℕ) (c : Cache α) : Cache α :=
  cleanCacheG CACHE_EXPIRY_MS MAX_CACHE_ENTRIES now c

/-- `VideoAnalysisService.CACHE_EXPIRY_MS` (24 hours). -/
def SUMMARY_CACHE_EXPIRY_MS : ℕ := 24 * 60 * 60 * 1000

/-- `VideoAnalysisService`'s `MAX_CACHE_ENTRIES`. -/
def SUMMARY_MAX_CACHE_ENTRIES : ℕ := 50

/-- `VideoAnalysisService.cleanCache` on the summary table. -/
def cleanSummaryCache {α : Type} (now : ℕ) (c : Cache α) : Cache α :=
  cleanCacheG SUMMARY_CACHE_EXPIRY_MS SUMMARY_MAX_CACHE_ENTRIES now c

/-- `loadCacheFromStorage`: starting from the in-memory table `mem`, restore
each persisted entry whose `timestamp` field is truthy (non-zero) and whose
age is strictly below the expiry window. -/
def loadCacheG {α : Type} (expiry now : ℕ) (mem persisted : Cache α) : Cache α :=
  persisted.foldl
    (fun m p =>
      if p.2.timestamp ≠ 0 ∧ now - p.2.timestamp < expiry then setEntry m p.1 p.2
      else m)
    mem

/-! ## `fetchTranscript` (youtube.ts lines 253–333)

The call is embedded as a function of the environment, the current clock, the
cache table and the arguments, returning the settlement of the promise, the
cache table after the call, and the list of URLs fetched through the request
queue during the call. -/

/-- The response object built by `fetchTranscript` from the fetched page (the
`minimalResponse` of the caption-failure branch is exactly `pageResponse`
with `lines := []`). -/
def pageResponse (ext : Ext) (url videoId pageBody : String)
    (lines : List TranscriptLine) : TranscriptResponse :=
  { url := url
    videoId := videoId
    title := ext.decode (jsOrDefault (ext.titleOf pageBody) "Unknown")
    author := ext.decode (jsOrDefault (ext.authorOf pageBody) "Unknown")
    channelUrl :=
      match ext.channelIdOf pageBody with
      | some channelId => "https://www.youtube.com/channel/" ++ channelId
      | none => ""
    lines := lines }

/-- `YouTubeService.fetchTranscript`. -/
def fetchTranscript (ext : Ext) (now : ℕ) (cache : Cache TranscriptResponse)
    (url : String) (langCode : String := "en") :
    Except String TranscriptResponse × Cache TranscriptResponse × List String :=
  match ext.videoIdOf url with
  | none => (.error "Failed to fetch transcript: Invalid YouTube URL", cache, [])
  | some videoId =>
    let cache := cleanCache now cache
    let cacheKey := "transcript_" ++ videoId ++ "_" ++ langCode
    match lookup cache cacheKey with
    | some entry => (.ok entry.data, cache, [])
    | none =>
      match ext.fetch url with
      | .error msg => (.error ("Failed to fetch transcript: " ++ msg), cache, [url])
      | .ok videoPageBody =>
        match extractCaptionsRun ext videoPageBody langCode with
        | (.ok captions, fetched) =>
          let response := pageResponse ext url videoId videoPageBody
            (parseCaptions ext captions)
          (.ok response, setEntry cache cacheKey ⟨response, now⟩, url :: fetched)
        | (.error _, fetched) =>
          let minimalResponse := pageResponse ext url videoId videoPageBody []
          (.ok minimalResponse, setEntry cache cacheKey ⟨minimalResponse, now⟩,
            url :: fetched)

end YT

namespace YT

/-! ## `getVideoId` (media-frame.tsx lines 18–48)

`getVideoId` relies on the WHATWG `URL` and `URLSearchParams` browser
classes.  They are modelled here for the absolute `http(s)` URL shapes the
function distinguishes: scheme, lower-cased hostname, pathname, query.
A string that the model cannot parse stands for a `URL` constructor throw
(the `catch` branch of the source). -/

/-- The parsed-URL fields read by `getVideoId`. -/
structure UrlObj where
  hostname : String
  pathname : String
  /-- The query string without its leading `?` (what `URLSearchParams` parses). -/
  query : String
deriving DecidableEq, Repr

/-- Characters ending the host component. -/
def hostEnd (c : Char) : Bool := c = '/' ∨ c = '?' ∨ c = '#'

/-- Characters ending the path component. -/
def pathEnd (c : Char) : Bool := c = '?' ∨ c = '#'

/-- Scheme recognition of the URL model: only absolute `http(s)` URLs are in
scope; anything else stands for a `URL` constructor throw. -/
def schemeSplit (l : List Char) : Option (List Char) :=
  if ("https://".toList).isPrefixOf l then some (l.drop 8)
  else if ("http://".toList).isPrefixOf l then some (l.drop 7)
  else none

/-- The path component read from what follows the host: a `/`-led path up to
`?` or `#`, or the canonical `/` when the path is absent. -/
def pathOf (a : List Char) : List Char :=
  match a with
  | '/' :: _ => a.takeWhile (fun c => ¬ pathEnd c)
  | _ => ['/']

/-- The query component read from what follows the path: the text between a
leading `?` and the fragment. -/
def queryOf (a : List Char) : List Char :=
  match a with
  | '?' :: q => q.takeWhile (fun c => c ≠ '#')
  | _ => []

/-- Model of `new URL(s)` for absolute `http(s)` URLs: strip the scheme,
read the host up to `/`, `?` or `#` (lower-cased, as the browser
canonicalizes it), then the path and the query; an empty host or a missing
`http(s)` scheme throws (`none`). -/
def parseURL (s : String) : Option UrlObj :=
  match schemeSplit s.toList with
  | none => none
  | some rest =>
    let host := rest.takeWhile (fun c => ¬ hostEnd c)
    if host = [] then none
    else
      let afterHost := rest.dropWhile (fun c => ¬ hostEnd c)
      some { hostname := String.mk (host.map Char.toLower)
             pathname := String.mk (pathOf afterHost)
             query := String.mk
               (queryOf (afterHost.dropWhile (fun c => ¬ pathEnd c))) }

/-- Whether a character is a hexadecimal digit. -/
def isHexChar (c : Char) : Bool :=
  ('0' ≤ c ∧ c ≤ '9') ∨ ('a' ≤ c ∧ c ≤ 'f') ∨ ('A' ≤ c ∧ c ≤ 'F')

/-- Value of a hexadecimal digit character. -/
def hexVal (c : Char) : ℕ :=
  if '0' ≤ c ∧ c ≤ '9' then c.toNat - '0'.toNat
  else if 'a' ≤ c ∧ c ≤ 'f' then c.toNat - 'a'.toNat + 10
  else if 'A' ≤ c ∧ c ≤ 'F' then c.toNat - 'A'.toNat + 10
  else 0

/-- Percent-decoding with `+` as space, as `URLSearchParams` applies to names
and values (multi-byte UTF-8 sequences are out of scope of the model). -/
def formDecode : List Char → List Char
  | [] => []
  | c :: t =>
    if c = '%' then
      match t with
      | a :: b :: t2 =>
        if isHexChar a ∧ isHexChar b then
          Char.ofNat (16 * hexVal a + hexVal b) :: formDecode t2
        else '%' :: formDecode (a :: b :: t2)
      | t2 => '%' :: formDecode t2
    else (if c = '+' then ' ' else c) :: formDecode t
  termination_by l => l.length

/-- Splitting on `&`, as `String.prototype.split` does (empty input gives one
empty segment; consecutive separators give empty segments). -/
def splitAmp : List Char → List (List Char)
  | [] => [[]]
  | c :: t =>
    if c = '&' then [] :: splitAmp t
    else
      match splitAmp t with
      | [] => [[c]]
      | seg :: rest => (c :: seg) :: rest

/-- `new URLSearchParams(search).get(key)`: split the query on `&`, ignore
empty segments, split each segment at its first `=`, return the first value
whose decoded name equals `key`. -/
def searchParamsGet (query key : String) : Option String :=
  let segs := (splitAmp query.toList).filter (fun seg => seg ≠ [])
  let pairs := segs.map (fun seg =>
    (String.mk (formDecode (seg.takeWhile (fun c => c ≠ '='))),
     String.mk (formDecode ((seg.dropWhile (fun c => c ≠ '=')).drop 1))))
  (pairs.find? (fun p => p.1 = key)).map Prod.snd

/-- `getVideoId` of `media-frame.tsx`. -/
def getVideoId (url : String) : String :=
  match parseURL url with
  | none => ""
  | some urlObj =>
    let hostname := urlObj.hostname
    if ¬ (hostname = "youtube.com" ∨ hostname = "www.youtube.com" ∨
          hostname = "youtu.be" ∨ hostname = "www.youtu.be") then ""
    else if hostname = "youtu.be" ∨ hostname = "www.youtu.be" then
      String.mk (urlObj.pathname.toList.drop 1)
    else
      (searchParamsGet urlObj.query "v").getD ""

end YT

namespace YT

/-! ## Request queue (youtube.ts lines 192–244)

`queueRequest` / `processQueue` run on a single-threaded event loop; the
interleavings of the drain loop, the 100 ms polls and the fetch settlements
are embedded as a small-step transition system over the queue's state.
Requests are identified by their position in the enqueue order. -/

/-- `MAX_CONCURRENT_REQUESTS`. -/
def MAX_CONCURRENT_REQUESTS : ℕ := 2

/-- The mutable state of the queue machinery: the FIFO waiting list
(`requestQueue`), the identities of started but unsettled fetches, the
settled requests, the `activeRequests` counter and the `processingQueue`
flag. -/
structure QState where
  waiting : List ℕ
  inflight : List ℕ
  settled : List ℕ
  activeRequests : ℕ
  processingQueue : Bool
deriving DecidableEq, Repr

/-- The state after `N` requests have been enqueued simultaneously and before
`processQueue` has run. -/
def initQState (N : ℕ) : QState :=
  { waiting := List.range N
    inflight := []
    settled := []
    activeRequests := 0
    processingQueue := false }

/-- One event-loop step of the queue machinery. -/
inductive QStep : QState → QState → Prop
  /-- `processQueue` entered past its guard
  (`requestQueue.length === 0 || processingQueue` returns): sets the flag. -/
  | begin (s : QState) (hq : s.waiting ≠ []) (hp : s.processingQueue = false) :
      QStep s { s with processingQueue := true }
  /-- One drain-loop iteration with a free slot: dequeue the head (FIFO),
  increment `activeRequests`, start its fetch. -/
  | dispatch (s : QState) (r : ℕ) (rest : List ℕ)
      (hw : s.waiting = r :: rest)
      (hp : s.processingQueue = true)
      (ha : s.activeRequests < MAX_CONCURRENT_REQUESTS) :
      QStep s { s with waiting := rest
                       inflight := s.inflight ++ [r]
                       activeRequests := s.activeRequests + 1 }
  /-- One drain-loop iteration at capacity: the 100 ms poll, no state change
  (`QStep` relates distinct observation points of the same state). -/
  | poll (s : QState)
      (hp : s.processingQueue = true)
      (ha : MAX_CONCURRENT_REQUESTS ≤ s.activeRequests) :
      QStep s s
  /-- A started fetch settles (resolves or rejects, in any order): its
  `then`/`catch` handler settles the caller's promise and decrements
  `activeRequests`. -/
  | settle (s : QState) (r : ℕ)
      (hr : r ∈ s.inflight) :
      QStep s { s with inflight := s.inflight.erase r
                       settled := s.settled ++ [r]
                       activeRequests := s.activeRequests - 1 }
  /-- The drain loop exits on an empty queue and clears the flag. -/
  | finish (s : QState)
      (hw : s.waiting = [])
      (hp : s.processingQueue = true) :
      QStep s { s with processingQueue := false }

/-- Finitely many steps. -/
def QSteps : QState → QState → Prop := Relation.ReflTransGen QStep

/-- States the system can be in after `N` simultaneous enqueues. -/
def QReachable (N : ℕ) (s : QState) : Prop := QSteps (initQState N) s

end YT

namespace YT

/-! ## Lemmas about the cache table operations -/

theorem lookup_eq_none_iff {α : Type} {c : Cache α} {k : String} :
    lookup c k = none ↔ ∀ p ∈ c, p.1 ≠ k := by
  simp [lookup, List.find?_eq_none]

theorem lookup_append_single {α : Type} {c : Cache α} {k : String}
    {e : CacheEntry α} (h : lookup c k = none) :
    lookup (c ++ [(k, e)]) k = some e := by
  have hf : c.find? (fun p => p.1 = k) = none := by
    simpa [lookup] using h
  simp [lookup, List.find?_append, hf]

theorem setEntry_of_lookup_none {α : Type} {c : Cache α} {k : String}
    (e : CacheEntry α) (h : lookup c k = none) :
    setEntry c k e = c ++ [(k, e)] := by
  rw [lookup_eq_none_iff] at h
  have : c.any (fun p => p.1 = k) = false := by
    simp only [List.any_eq_false, decide_eq_true_eq]
    exact h
  simp [setEntry, this]

theorem lookup_filter_keep {α : Type} {c : Cache α} {k : String}
    {e : CacheEntry α} {q : String × CacheEntry α → Bool}
    (h : lookup c k = some e) (hq : q (k, e) = true) :
    lookup (c.filter q) k = some e := by
  induction c with
  | nil => simp [lookup] at h
  | cons p t ih =>
    by_cases hp : p.1 = k
    · have hpe : p = (k, e) := by
        have : p.2 = e := by
          simpa [lookup, List.find?_cons_of_pos, hp] using h
        cases p; simp_all
      subst hpe
      simp [List.filter_cons, hq, lookup, List.find?_cons_of_pos]
    · have ht : lookup t k = some e := by
        simpa [lookup, List.find?_cons_of_neg, hp] using h
      by_cases hqp : q p = true
      · simpa [List.filter_cons, hqp, lookup, List.find?_cons_of_neg, hp] using ih ht
      · simp only [Bool.not_eq_true] at hqp
        simpa [List.filter_cons, hqp] using ih ht

theorem lookup_filter_none {α : Type} {c : Cache α} {k : String}
    {q : String × CacheEntry α → Bool}
    (h : ∀ p ∈ c, p.1 = k → q p = false) :
    lookup (c.filter q) k = none := by
  induction c with
  | nil => simp [lookup]
  | cons p t ih =>
    have ht : lookup (t.filter q) k = none :=
      ih fun x hx => h x (List.mem_cons_of_mem _ hx)
    by_cases hp : p.1 = k
    · have : q p = false := h p (List.mem_cons_self _ _) hp
      simpa [List.filter_cons, this] using ht
    · by_cases hqp : q p = true
      · simpa [List.filter_cons, hqp, lookup, List.find?_cons_of_neg, hp] using ht
      · simp only [Bool.not_eq_true] at hqp
        simpa [List.filter_cons, hqp] using ht

theorem eq_of_mem_of_lookup {α : Type} {c : Cache α} {k : String}
    {e : CacheEntry α} (hnd : NoDupKeys c) (h : lookup c k = some e) :
    ∀ p ∈ c, p.1 = k → p = (k, e) := by
  induction c with
  | nil => simp
  | cons p0 t ih =>
    have hnd' : NoDupKeys t := (List.nodup_cons.mp hnd).2
    have hk0 : p0.1 ∉ t.map Prod.fst := (List.nodup_cons.mp hnd).1
    intro p hp hpk
    by_cases h0 : p0.1 = k
    · have hpe : p0 = (k, e) := by
        have : p0.2 = e := by
          simpa [lookup, List.find?_cons_of_pos, h0] using h
        cases p0; simp_all
      rcases List.mem_cons.mp hp with rfl | hpt
      · exact hpe
      · exfalso
        apply hk0
        rw [← hpk] at h0
        rw [h0]
        exact List.mem_map_of_mem Prod.fst hpt
    · have ht : lookup t k = some e := by
        simpa [lookup, List.find?_cons_of_neg, h0] using h
      rcases List.mem_cons.mp hp with rfl | hpt
      · exact absurd hpk h0
      · exact ih hnd' ht p hpt hpk

theorem NoDupKeys.filter {α : Type} {c : Cache α} (hnd : NoDupKeys c)
    (q : String × CacheEntry α → Bool) : NoDupKeys (c.filter q) :=
  hnd.sublist ((List.filter_sublist c).map Prod.fst)

theorem NoDupKeys.append_single {α : Type} {c : Cache α} {k : String}
    {e : CacheEntry α} (hnd : NoDupKeys c) (h : lookup c k = none) :
    NoDupKeys (c ++ [(k, e)]) := by
  rw [lookup_eq_none_iff] at h
  unfold NoDupKeys at hnd ⊢
  rw [List.map_append]
  refine List.Nodup.append hnd (List.nodup_singleton k) ?_
  intro a ha hb
  simp only [List.map_cons, List.map_nil, List.mem_singleton] at hb
  obtain ⟨p, hp, rfl⟩ := List.mem_map.mp ha
  exact h p hp hb

end YT

namespace YT

/-! ## Lemmas about timestamp sorting and size trimming -/

theorem orderedInsert_append_last {α : Type} (a e : String × CacheEntry α)
    (m : List (String × CacheEntry α)) (h : tsLe a e) :
    (m ++ [e]).orderedInsert tsLe a = m.orderedInsert tsLe a ++ [e] := by
  induction m with
  | nil => simp [List.orderedInsert, if_pos h]
  | cons b m ih =>
    by_cases hb : tsLe a b
    · simp [List.orderedInsert, if_pos hb]
    · simp [List.orderedInsert, if_neg hb, ih]

theorem insertionSort_append_last {α : Type}
    (l : List (String × CacheEntry α)) (e : String × CacheEntry α)
    (h : ∀ x ∈ l, tsLe x e) :
    (l ++ [e]).insertionSort tsLe = l.insertionSort tsLe ++ [e] := by
  induction l with
  | nil => simp [List.insertionSort, List.orderedInsert]
  | cons a l ih =>
    have ha : tsLe a e := h a (List.mem_cons_self _ _)
    rw [List.cons_append, List.insertionSort, List.insertionSort,
      ih fun x hx => h x (List.mem_cons_of_mem _ hx),
      orderedInsert_append_last _ _ _ ha]

theorem cacheTrim_of_length_le {α : Type} {c : Cache α} {bound : ℕ}
    (h : c.length ≤ bound) : cacheTrim bound c = c := by
  simp [cacheTrim, Nat.not_lt.mpr h]

theorem cacheTrim_eq_of_gt {α : Type} {c : Cache α} {bound : ℕ}
    (h : c.length > bound) :
    cacheTrim bound c =
      c.filter (fun p =>
        ¬ p.1 ∈ ((c.insertionSort tsLe).map Prod.fst).take (c.length - bound)) := by
  simp only [cacheTrim, if_pos h]

theorem cacheTrim_spec {α : Type} {c : Cache α} {bound : ℕ}
    (hnd : NoDupKeys c) (h : c.length > bound) :
    (cacheTrim bound c).length = bound ∧
    (∀ p ∈ cacheTrim bound c, p ∈ c) ∧
    (∀ p ∈ c, p ∉ cacheTrim bound c →
      ∀ q ∈ cacheTrim bound c, p.2.timestamp ≤ q.2.timestamp) := by
  classical
  set s := c.insertionSort tsLe with hs
  have hperm : List.Perm s c := List.perm_insertionSort tsLe c
  have hsort : List.Sorted tsLe s := List.sorted_insertionSort tsLe c
  have hkeys : (s.map Prod.fst).Nodup := ((hperm.map Prod.fst).nodup_iff).mpr hnd
  set m := c.length - bound with hm
  set toRemove := (s.map Prod.fst).take m with htr
  have hA : ∀ p ∈ s.take m, p.1 ∈ toRemove := by
    intro p hp
    rw [htr, ← List.map_take]
    exact List.mem_map_of_mem Prod.fst hp
  have hB : ∀ p ∈ s.drop m, p.1 ∉ toRemove := by
    intro p hp hmem
    have hsplit : (s.map Prod.fst).take m ++ (s.map Prod.fst).drop m
        = s.map Prod.fst := List.take_append_drop _ _
    have hdisj : List.Disjoint ((s.map Prod.fst).take m)
        ((s.map Prod.fst).drop m) := by
      have := hkeys
      rw [← hsplit] at this
      exact (List.nodup_append.mp this).2.2
    have hpd : p.1 ∈ (s.map Prod.fst).drop m := by
      rw [← List.map_drop]
      exact List.mem_map_of_mem Prod.fst hp
    exact hdisj hmem hpd
  have hfe : cacheTrim bound c = c.filter (fun p => ¬ p.1 ∈ toRemove) :=
    cacheTrim_eq_of_gt h
  have hfilter_perm : List.Perm (c.filter (fun p => ¬ p.1 ∈ toRemove))
      (s.filter (fun p => ¬ p.1 ∈ toRemove)) :=
    (hperm.filter _).symm
  have hfilter_s : s.filter (fun p => ¬ p.1 ∈ toRemove) = s.drop m := by
    conv_lhs => rw [← List.take_append_drop m s]
    rw [List.filter_append]
    have h1 : (s.take m).filter (fun p => ¬ p.1 ∈ toRemove) = [] := by
      rw [List.filter_eq_nil_iff]
      intro p hp
      simp [hA p hp]
    have h2 : (s.drop m).filter (fun p => ¬ p.1 ∈ toRemove) = s.drop m := by
      rw [List.filter_eq_self]
      intro p hp
      simp [hB p hp]
    rw [h1, h2, List.nil_append]
  have hmem_iff : ∀ p, p ∈ cacheTrim bound c ↔ p ∈ c ∧ ¬ p.1 ∈ toRemove := by
    intro p
    rw [hfe, List.mem_filter]
    simp
  refine ⟨?_, ?_, ?_⟩
  · rw [hfe, hfilter_perm.length_eq, hfilter_s, List.length_drop,
      hperm.length_eq, hm]
    omega
  · intro p hp
    exact ((hmem_iff p).mp hp).1
  · intro p hp hnotin k hk
    have hin : p.1 ∈ toRemove := by
      by_contra hcon
      exact hnotin ((hmem_iff p).mpr ⟨hp, hcon⟩)
    have hptake : p ∈ s.take m := by
      have hps : p ∈ s := hperm.mem_iff.mpr hp
      rw [← List.take_append_drop m s] at hps
      rcases List.mem_append.mp hps with hp1 | hp2
      · exact hp1
      · exact absurd hin (hB p hp2)
    have hkdrop : k ∈ s.drop m := by
      obtain ⟨hkc, hknot⟩ := (hmem_iff k).mp hk
      have hks : k ∈ s := hperm.mem_iff.mpr hkc
      rw [← List.take_append_drop m s] at hks
      rcases List.mem_append.mp hks with hk1 | hk2
      · exact absurd (hA k hk1) hknot
      · exact hk2
    exact hsort.rel_of_mem_take_of_mem_drop hptake hkdrop

end YT

namespace YT

theorem lookup_none_of_nodup_append {α : Type} {l : Cache α} {k : String}
    {e : CacheEntry α} (hnd : NoDupKeys (l ++ [(k, e)])) : lookup l k = none := by
  rw [lookup_eq_none_iff]
  intro p hp hpk
  unfold NoDupKeys at hnd
  rw [List.map_append] at hnd
  have hdisj := (List.nodup_append.mp hnd).2.2
  exact hdisj (List.mem_map_of_mem Prod.fst hp) (by simp [hpk])

theorem cacheTrim_lookup_last {α : Type} {l : Cache α} {k : String}
    {e : CacheEntry α} {bound : ℕ}
    (hnd : NoDupKeys (l ++ [(k, e)]))
    (hts : ∀ p ∈ l, p.2.timestamp ≤ e.timestamp)
    (hb : 1 ≤ bound)
    (hlen : (l ++ [(k, e)]).length ≤ bound + 1) :
    lookup (cacheTrim bound (l ++ [(k, e)])) k = some e := by
  have hkl : lookup l k = none := lookup_none_of_nodup_append hnd
  have hlast : lookup (l ++ [(k, e)]) k = some e := lookup_append_single hkl
  rcases le_or_lt (l ++ [(k, e)]).length bound with hle | hgt
  · rw [cacheTrim_of_length_le hle]
    exact hlast
  · have hll : l.length = bound := by
      simp only [List.length_append, List.length_singleton] at hlen hgt
      omega
    have hlne : l ≠ [] := by
      intro hnil
      rw [hnil] at hll
      simp at hll
      omega
    have hm : (l ++ [(k, e)]).length - bound = 1 := by
      simp only [List.length_append, List.length_singleton]
      omega
    have hsorteq : (l ++ [(k, e)]).insertionSort tsLe
        = l.insertionSort tsLe ++ [(k, e)] :=
      insertionSort_append_last l (k, e) fun x hx => hts x hx
    obtain ⟨a, t, hat⟩ := List.exists_cons_of_ne_nil
      (show l.insertionSort tsLe ≠ [] by
        intro hnil
        exact hlne (List.eq_nil_of_length_eq_zero
          (by rw [← (List.perm_insertionSort tsLe l).length_eq, hnil]; rfl)))
    have hak : a.1 ≠ k := by
      intro hak
      have hal : a ∈ l :=
        (List.perm_insertionSort tsLe l).subset (hat ▸ List.mem_cons_self a t)
      have := lookup_eq_none_iff.mp hkl a hal
      exact this hak
    rw [cacheTrim_eq_of_gt hgt]
    have hkeys : ((l ++ [(k, e)]).insertionSort tsLe).map Prod.fst
        = (a.1 :: t.map Prod.fst) ++ [k] := by
      rw [hsorteq, hat]
      simp
    have htake : (((l ++ [(k, e)]).insertionSort tsLe).map Prod.fst).take
        ((l ++ [(k, e)]).length - bound) = [a.1] := by
      rw [hm, hkeys]
      rfl
    rw [htake]
    exact lookup_filter_keep hlast (by simp [Ne.symm hak])

theorem cacheTrim_subset {α : Type} {c : Cache α} {bound : ℕ} :
    ∀ p ∈ cacheTrim bound c, p ∈ c := by
  intro p hp
  unfold cacheTrim at hp
  split at hp
  · exact List.mem_of_mem_filter hp
  · exact hp

theorem NoDupKeys.cacheTrim {α : Type} {c : Cache α} (hnd : NoDupKeys c)
    (bound : ℕ) : NoDupKeys (cacheTrim bound c) := by
  unfold YT.cacheTrim
  split
  · exact hnd.filter _
  · exact hnd

theorem mem_cacheExpire {α : Type} {c : Cache α} {expiry now : ℕ}
    {p : String × CacheEntry α} :
    p ∈ cacheExpire expiry now c ↔
      p ∈ c ∧ ¬ now - p.2.timestamp > expiry := by
  unfold cacheExpire
  rw [List.mem_filter]
  simp

theorem NoDupKeys.cacheExpire {α : Type} {c : Cache α} (hnd : NoDupKeys c)
    (expiry now : ℕ) : NoDupKeys (YT.cacheExpire expiry now c) :=
  hnd.filter _

theorem NoDupKeys.cleanCacheG {α : Type} {c : Cache α} (hnd : NoDupKeys c)
    (expiry bound now : ℕ) : NoDupKeys (YT.cleanCacheG expiry bound now c) :=
  (hnd.cacheExpire expiry now).cacheTrim bound

theorem cleanCacheG_subset {α : Type} {c : Cache α} {expiry bound now : ℕ} :
    ∀ p ∈ cleanCacheG expiry bound now c, p ∈ c := by
  intro p hp
  exact (mem_cacheExpire.mp (cacheTrim_subset p hp)).1

theorem cleanCacheG_length_le {α : Type} {c : Cache α} {expiry bound now : ℕ}
    (hnd : NoDupKeys c) : (cleanCacheG expiry bound now c).length ≤ bound ∨
      cleanCacheG expiry bound now c = cacheExpire expiry now c := by
  unfold cleanCacheG
  rcases le_or_lt (cacheExpire expiry now c).length bound with hle | hgt
  · right
    exact cacheTrim_of_length_le hle
  · left
    exact le_of_eq (cacheTrim_spec (hnd.cacheExpire expiry now) hgt).1

theorem cleanCacheG_length_le_of_le {α : Type} {c : Cache α}
    {expiry bound now : ℕ} (hnd : NoDupKeys c) (hc : c.length ≤ bound) :
    (cleanCacheG expiry bound now c).length ≤ bound := by
  rcases @cleanCacheG_length_le _ c expiry bound now hnd with h | h
  · exact h
  · rw [h]
    exact le_trans (List.length_filter_le _ _) hc

end YT

namespace YT

/-! ## Unfolding lemmas for `fetchTranscript` -/

theorem selectTrack_nil (langCode : String) : selectTrack [] langCode = none := by
  unfold selectTrack
  cases h : decide (langCode ≠ "") <;> simp_all

theorem extractCaptionsRun_no_tracks {ext : Ext} {pageBody langCode content : String}
    (hscript : (ext.getScripts pageBody).find? (fun c => strIncludes c marker)
      = some content)
    (hjson : ext.jsonParse (playerDataString content) = some []) :
    extractCaptionsRun ext pageBody langCode = (.error "No captions available", []) := by
  unfold extractCaptionsRun
  rw [hscript]
  simp only [hjson, selectTrack_nil]

theorem fetchTranscript_hit {ext : Ext} {now : ℕ} {cache : Cache TranscriptResponse}
    {url langCode videoId : String} {entry : CacheEntry TranscriptResponse}
    (hid : ext.videoIdOf url = some videoId)
    (hhit : lookup (cleanCache now cache)
      ("transcript_" ++ videoId ++ "_" ++ langCode) = some entry) :
    fetchTranscript ext now cache url langCode
      = (.ok entry.data, cleanCache now cache, []) := by
  unfold fetchTranscript
  rw [hid]
  simp only [hhit]

theorem fetchTranscript_miss_captions
    {ext : Ext} {now : ℕ} {cache : Cache TranscriptResponse}
    {url langCode videoId videoPageBody captions : String} {fetched : List String}
    (hid : ext.videoIdOf url = some videoId)
    (hmiss : lookup (cleanCache now cache)
      ("transcript_" ++ videoId ++ "_" ++ langCode) = none)
    (hfetch : ext.fetch url = .ok videoPageBody)
    (hcap : extractCaptionsRun ext videoPageBody langCode = (.ok captions, fetched)) :
    fetchTranscript ext now cache url langCode
      = (.ok (pageResponse ext url videoId videoPageBody (parseCaptions ext captions)),
         setEntry (cleanCache now cache) ("transcript_" ++ videoId ++ "_" ++ langCode)
           ⟨pageResponse ext url videoId videoPageBody (parseCaptions ext captions), now⟩,
         url :: fetched) := by
  unfold fetchTranscript
  rw [hid]
  simp only [hmiss, hfetch, hcap]

theorem fetchTranscript_miss_nocaptions
    {ext : Ext} {now : ℕ} {cache : Cache TranscriptResponse}
    {url langCode videoId videoPageBody msg : String} {fetched : List String}
    (hid : ext.videoIdOf url = some videoId)
    (hmiss : lookup (cleanCache now cache)
      ("transcript_" ++ videoId ++ "_" ++ langCode) = none)
    (hfetch : ext.fetch url = .ok videoPageBody)
    (hcap : extractCaptionsRun ext videoPageBody langCode = (.error msg, fetched)) :
    fetchTranscript ext now cache url langCode
      = (.ok (pageResponse ext url videoId videoPageBody []),
         setEntry (cleanCache now cache) ("transcript_" ++ videoId ++ "_" ++ langCode)
           ⟨pageResponse ext url videoId videoPageBody [], now⟩,
         url :: fetched) := by
  unfold fetchTranscript
  rw [hid]
  simp only [hmiss, hfetch, hcap]

/-- After a cache write at time `T` into a table whose other entries are no
newer than `T` and fit the bound, a cleanup at any `later` within the expiry
window still finds the written entry. -/
theorem lookup_cleanCacheG_fresh {α : Type} {c1 : Cache α} {k : String}
    {d : α} {T expiry bound later : ℕ}
    (hnd : NoDupKeys c1)
    (hk : lookup c1 k = none)
    (hts : ∀ p ∈ c1, p.2.timestamp ≤ T)
    (hlen : c1.length ≤ bound)
    (hb : 1 ≤ bound)
    (hfresh : later - T ≤ expiry) :
    lookup (cleanCacheG expiry bound later (c1 ++ [(k, ⟨d, T⟩)])) k
      = some ⟨d, T⟩ := by
  have hndall : NoDupKeys (c1 ++ [(k, (⟨d, T⟩ : CacheEntry α))]) :=
    hnd.append_single hk
  have hexp : cacheExpire expiry later (c1 ++ [(k, (⟨d, T⟩ : CacheEntry α))])
      = cacheExpire expiry later c1 ++ [(k, ⟨d, T⟩)] := by
    unfold cacheExpire
    rw [List.filter_append]
    congr 1
    simp only [List.filter_cons, List.filter_nil, decide_not, gt_iff_lt,
      Nat.not_lt.mpr hfresh, decide_False, Bool.not_false, if_true]
  unfold cleanCacheG
  rw [hexp]
  apply cacheTrim_lookup_last
  · rw [← hexp]
    exact hndall.cacheExpire expiry later
  · intro p hp
    exact hts p (mem_cacheExpire.mp hp).1
  · exact hb
  · have : (cacheExpire expiry later c1).length ≤ c1.length :=
      List.length_filter_le _ _
    simp only [List.length_append, List.length_singleton]
    omega

end YT

namespace YT

theorem cleanCacheG_length_bound {α : Type} {c : Cache α} {expiry bound now : ℕ}
    (hnd : NoDupKeys c) : (cleanCacheG expiry bound now c).length ≤ bound := by
  unfold cleanCacheG
  rcases le_or_lt (cacheExpire expiry now c).length bound with hle | hgt
  · rw [cacheTrim_of_length_le hle]
    exact hle
  · exact le_of_eq (cacheTrim_spec (hnd.cacheExpire expiry now) hgt).1

/-- Shared core of the cache-idempotence claims: a `fetchTranscript` call that
misses the cache and reaches the page fetch resolves with some response `r`,
leaves the cache with `r` stored at the transcript key with timestamp `T`,
and a repeat call at any `Tsecond` within the expiry window is answered from
the cache — same result, no URL fetched. -/
theorem fetchTranscript_second_call_cached
    (ext : Ext) (T Tsecond : ℕ) (cache : Cache TranscriptResponse)
    (url langCode videoId videoPageBody : String)
    (hid : ext.videoIdOf url = some videoId)
    (hmiss : lookup (cleanCache T cache)
      ("transcript_" ++ videoId ++ "_" ++ langCode) = none)
    (hfetch : ext.fetch url = .ok videoPageBody)
    (hnd : NoDupKeys cache)
    (hts : ∀ p ∈ cache, p.2.timestamp ≤ T)
    (hfresh : Tsecond - T < CACHE_EXPIRY_MS) :
    ∃ r fetched,
      fetchTranscript ext T cache url langCode
        = (.ok r,
           cleanCache T cache
             ++ [("transcript_" ++ videoId ++ "_" ++ langCode, ⟨r, T⟩)],
           url :: fetched) ∧
      fetchTranscript ext Tsecond
          (fetchTranscript ext T cache url langCode).2.1 url langCode
        = (.ok r,
           cleanCache Tsecond (fetchTranscript ext T cache url langCode).2.1,
           []) := by
  have hnd1 : NoDupKeys (cleanCache T cache) :=
    hnd.cleanCacheG CACHE_EXPIRY_MS MAX_CACHE_ENTRIES T
  have hts1 : ∀ p ∈ cleanCache T cache, p.2.timestamp ≤ T :=
    fun p hp => hts p (cleanCacheG_subset p hp)
  have hlen1 : (cleanCache T cache).length ≤ MAX_CACHE_ENTRIES :=
    cleanCacheG_length_bound hnd
  have hsecond : ∀ r : TranscriptResponse,
      lookup (cleanCache Tsecond (cleanCache T cache
        ++ [("transcript_" ++ videoId ++ "_" ++ langCode, ⟨r, T⟩)]))
        ("transcript_" ++ videoId ++ "_" ++ langCode) = some ⟨r, T⟩ := by
    intro r
    exact lookup_cleanCacheG_fresh hnd1 hmiss hts1 hlen1 (by norm_num [MAX_CACHE_ENTRIES])
      (le_of_lt hfresh)
  rcases hrun : extractCaptionsRun ext videoPageBody langCode with ⟨res, fetchedUrls⟩
  cases res with
  | ok captions =>
    have h1 := fetchTranscript_miss_captions hid hmiss hfetch hrun
    rw [setEntry_of_lookup_none _ hmiss] at h1
    refine ⟨pageResponse ext url videoId videoPageBody (parseCaptions ext captions),
      fetchedUrls, h1, ?_⟩
    rw [h1]
    exact fetchTranscript_hit hid (hsecond _)
  | error msg =>
    have h1 := fetchTranscript_miss_nocaptions hid hmiss hfetch hrun
    rw [setEntry_of_lookup_none _ hmiss] at h1
    refine ⟨pageResponse ext url videoId videoPageBody [], fetchedUrls, h1, ?_⟩
    rw [h1]
    exact fetchTranscript_hit hid (hsecond _)

end YT

namespace YT

/-- Concrete environment used to exercise the no-caption-tracks path: the
fetched page has one marker-bearing script and its player response parses to
an empty caption-track list. -/
def extNoTracks : Ext :=
  { videoIdOf := fun u => if u = "u" then some "v" else none
    titleOf := fun _ => none
    authorOf := fun _ => none
    channelIdOf := fun _ => none
    getScripts := fun _ => ["var ytInitialPlayerResponse = \x7ba\x7d;"]
    jsonParse := fun _ => some []
    getCues := fun _ => none
    decode := fun s => s
    fetch := fun _ => .ok "B" }

/-- C1.  For a page whose embedded player response lists no caption tracks,
`fetchTranscript` resolves (it does not reject) with the minimal result whose
`lines` is `[]`, stores that result in the video-data cache under
`transcript_{videoId}_{langCode}` with the call's timestamp, and a second
call with the same video id and language within the 30-minute expiry window
returns the cached empty result with no further page fetch. -/
theorem claim_C1_no_captions_cached
    (ext : Ext) (T Tsecond : ℕ) (cache : Cache TranscriptResponse)
    (url langCode videoId videoPageBody content : String)
    (hid : ext.videoIdOf url = some videoId)
    (hmiss : lookup (cleanCache T cache)
      ("transcript_" ++ videoId ++ "_" ++ langCode) = none)
    (hfetch : ext.fetch url = .ok videoPageBody)
    (hscript : (ext.getScripts videoPageBody).find? (fun c => strIncludes c marker)
      = some content)
    (hjson : ext.jsonParse (playerDataString content) = some [])
    (hnd : NoDupKeys cache)
    (hts : ∀ p ∈ cache, p.2.timestamp ≤ T)
    (hfresh : Tsecond - T < CACHE_EXPIRY_MS) :
    fetchTranscript ext T cache url langCode
      = (.ok (pageResponse ext url videoId videoPageBody []),
         cleanCache T cache
           ++ [("transcript_" ++ videoId ++ "_" ++ langCode,
               ⟨pageResponse ext url videoId videoPageBody [], T⟩)],
         [url]) ∧
    (pageResponse ext url videoId videoPageBody []).lines = [] ∧
    lookup (fetchTranscript ext T cache url langCode).2.1
        ("transcript_" ++ videoId ++ "_" ++ langCode)
      = some ⟨pageResponse ext url videoId videoPageBody [], T⟩ ∧
    fetchTranscript ext Tsecond
        (fetchTranscript ext T cache url langCode).2.1 url langCode
      = (.ok (pageResponse ext url videoId videoPageBody []),
         cleanCache Tsecond (fetchTranscript ext T cache url langCode).2.1,
         []) := by
  have hrun := @extractCaptionsRun_no_tracks ext videoPageBody langCode content hscript hjson
  have h1 := fetchTranscript_miss_nocaptions hid hmiss hfetch hrun
  rw [setEntry_of_lookup_none _ hmiss] at h1
  have hnd1 : NoDupKeys (cleanCache T cache) :=
    hnd.cleanCacheG CACHE_EXPIRY_MS MAX_CACHE_ENTRIES T
  have hts1 : ∀ p ∈ cleanCache T cache, p.2.timestamp ≤ T :=
    fun p hp => hts p (cleanCacheG_subset p hp)
  have hlen1 : (cleanCache T cache).length ≤ MAX_CACHE_ENTRIES :=
    cleanCacheG_length_bound hnd
  have hsecond : lookup (cleanCache Tsecond (cleanCache T cache
      ++ [("transcript_" ++ videoId ++ "_" ++ langCode,
          ⟨pageResponse ext url videoId videoPageBody [], T⟩)]))
      ("transcript_" ++ videoId ++ "_" ++ langCode)
      = some ⟨pageResponse ext url videoId videoPageBody [], T⟩ :=
    lookup_cleanCacheG_fresh hnd1 hmiss hts1 hlen1
      (by norm_num [MAX_CACHE_ENTRIES]) (le_of_lt hfresh)
  refine ⟨h1, rfl, ?_, ?_⟩
  · rw [h1]
    exact lookup_append_single hmiss
  · rw [h1]
    exact fetchTranscript_hit hid hsecond

/-- Witness for C1 at a concrete page, cache and clock. -/
theorem claim_C1_no_captions_cached_witness :
    fetchTranscript extNoTracks 0 [] "u" "en"
      = (.ok (pageResponse extNoTracks "u" "v" "B" []),
         [("transcript_v_en", ⟨pageResponse extNoTracks "u" "v" "B" [], 0⟩)],
         ["u"]) ∧
    (pageResponse extNoTracks "u" "v" "B" []).lines = [] ∧
    lookup (fetchTranscript extNoTracks 0 [] "u" "en").2.1 "transcript_v_en"
      = some ⟨pageResponse extNoTracks "u" "v" "B" [], 0⟩ ∧
    fetchTranscript extNoTracks 5
        (fetchTranscript extNoTracks 0 [] "u" "en").2.1 "u" "en"
      = (.ok (pageResponse extNoTracks "u" "v" "B" []),
         cleanCache 5 (fetchTranscript extNoTracks 0 [] "u" "en").2.1,
         []) := by
  have h := claim_C1_no_captions_cached extNoTracks 0 5 [] "u" "en" "v" "B"
    "var ytInitialPlayerResponse = \x7ba\x7d;"
    (by decide) (by decide) rfl (by decide) rfl
    (by simp [NoDupKeys]) (by simp) (by decide)
  simpa using h

end YT

namespace YT

/-- C6 (amended).  If `fetchTranscript(url, lang)` succeeds at time `T` *via
an actual page fetch* (the call misses the cache and the page fetch
resolves), then — given that no cache timestamp lies in the future of `T` —
a second call with the same arguments at any time before `T` plus the
30-minute expiry window performs no network fetch at all and returns a result
equal to the first call's result. -/
theorem claim_C6_second_call_free
    (ext : Ext) (T Tsecond : ℕ) (cache : Cache TranscriptResponse)
    (url langCode videoId videoPageBody : String)
    (hid : ext.videoIdOf url = some videoId)
    (hmiss : lookup (cleanCache T cache)
      ("transcript_" ++ videoId ++ "_" ++ langCode) = none)
    (hfetch : ext.fetch url = .ok videoPageBody)
    (hnd : NoDupKeys cache)
    (hts : ∀ p ∈ cache, p.2.timestamp ≤ T)
    (hfresh : Tsecond - T < CACHE_EXPIRY_MS) :
    ∃ r, (fetchTranscript ext T cache url langCode).1 = .ok r ∧
      (fetchTranscript ext Tsecond
        (fetchTranscript ext T cache url langCode).2.1 url langCode).1 = .ok r ∧
      (fetchTranscript ext Tsecond
        (fetchTranscript ext T cache url langCode).2.1 url langCode).2.2 = [] := by
  obtain ⟨r, fetched, h1, h2⟩ := fetchTranscript_second_call_cached ext T Tsecond
    cache url langCode videoId videoPageBody hid hmiss hfetch hnd hts hfresh
  refine ⟨r, ?_, ?_, ?_⟩
  · rw [h1]
  · rw [h2]
  · rw [h2]

instance {e a : Type} [DecidableEq e] [DecidableEq a] : DecidableEq (Except e a) := fun
  | .error x, .error y =>
    if h : x = y then .isTrue (by rw [h])
    else .isFalse (by intro he; cases he; exact h rfl)
  | .error _, .ok _ => .isFalse (by intro h; cases h)
  | .ok _, .error _ => .isFalse (by intro h; cases h)
  | .ok x, .ok y =>
    if h : x = y then .isTrue (by rw [h])
    else .isFalse (by intro he; cases he; exact h rfl)

/-- Concrete environment for the C6 counterexample and witness scenarios. -/
def extPlain : Ext :=
  { videoIdOf := fun u => if u = "u" then some "v" else none
    titleOf := fun _ => none
    authorOf := fun _ => none
    channelIdOf := fun _ => none
    getScripts := fun _ => []
    jsonParse := fun _ => none
    getCues := fun _ => none
    decode := fun s => s
    fetch := fun _ => .ok "B" }

/-- A video-data cache holding one transcript entry written at time `0`. -/
def cacheAtZero : Cache TranscriptResponse :=
  [("transcript_v_en", ⟨⟨"u", "v", "T0", "A0", "", []⟩, 0⟩)]

/-- Counterexample to C6 as stated.  `fetchTranscript` *succeeds* at
`T = 1799999` (served from a cache entry written at time `0`), `Tsecond =
1800001` lies well within the 30-minute window after `T`, yet the second call
does use the queue (it fetches the page URL) and returns a result that is not
deeply equal to the first call's result: the first call's success came from a
cache entry older than `T`, which expires between the two calls. -/
theorem claim_C6_counterexample :
    (fetchTranscript extPlain 1799999 cacheAtZero "u" "en").1
      = .ok ⟨"u", "v", "T0", "A0", "", []⟩ ∧
    (1800001 : ℕ) - 1799999 < CACHE_EXPIRY_MS ∧
    (fetchTranscript extPlain 1800001
      (fetchTranscript extPlain 1799999 cacheAtZero "u" "en").2.1 "u" "en").2.2
      = ["u"] ∧
    (fetchTranscript extPlain 1800001
      (fetchTranscript extPlain 1799999 cacheAtZero "u" "en").2.1 "u" "en").1
      ≠ .ok ⟨"u", "v", "T0", "A0", "", []⟩ := by
  refine ⟨?_, by decide, ?_, ?_⟩ <;> decide

/-- Witness for the amended C6 at a concrete environment and empty cache. -/
theorem claim_C6_second_call_free_witness :
    ∃ r, (fetchTranscript extPlain 0 [] "u" "en").1 = .ok r ∧
      (fetchTranscript extPlain 7
        (fetchTranscript extPlain 0 [] "u" "en").2.1 "u" "en").1 = .ok r ∧
      (fetchTranscript extPlain 7
        (fetchTranscript extPlain 0 [] "u" "en").2.1 "u" "en").2.2 = [] :=
  claim_C6_second_call_free extPlain 0 7 [] "u" "en" "v" "B"
    (by decide) (by decide) rfl (by simp [NoDupKeys]) (by simp) (by decide)

end YT

namespace YT

/-- C2 (amended).  When the player-response marker is found but the sliced
JSON text fails to parse, `extractCaptions` rejects with the single
descriptive error `'Failed to parse caption data'`; `fetchTranscript`,
however, catches every caption-phase error in its inner `catch` and
*resolves* with the minimal result (`lines: []`), caching it — it does not
propagate the parse error to its caller. -/
theorem claim_C2_parse_error_swallowed
    (ext : Ext) (now : ℕ) (cache : Cache TranscriptResponse)
    (url langCode videoId videoPageBody content : String)
    (hscript : (ext.getScripts videoPageBody).find? (fun c => strIncludes c marker)
      = some content)
    (hjson : ext.jsonParse (playerDataString content) = none)
    (hid : ext.videoIdOf url = some videoId)
    (hmiss : lookup (cleanCache now cache)
      ("transcript_" ++ videoId ++ "_" ++ langCode) = none)
    (hfetch : ext.fetch url = .ok videoPageBody) :
    extractCaptionsRun ext videoPageBody langCode
      = (.error "Failed to parse caption data", []) ∧
    fetchTranscript ext now cache url langCode
      = (.ok (pageResponse ext url videoId videoPageBody []),
         setEntry (cleanCache now cache)
           ("transcript_" ++ videoId ++ "_" ++ langCode)
           ⟨pageResponse ext url videoId videoPageBody [], now⟩,
         [url]) := by
  have hrun : extractCaptionsRun ext videoPageBody langCode
      = (.error "Failed to parse caption data", []) := by
    unfold extractCaptionsRun
    rw [hscript]
    simp only [hjson]
  exact ⟨hrun, fetchTranscript_miss_nocaptions hid hmiss hfetch hrun⟩

/-- Concrete environment for the caption-JSON-parse-failure scenario: the
page carries a marker script whose sliced payload fails `JSON.parse`. -/
def extBadJson : Ext :=
  { videoIdOf := fun u => if u = "u" then some "v" else none
    titleOf := fun _ => none
    authorOf := fun _ => none
    channelIdOf := fun _ => none
    getScripts := fun _ => ["var ytInitialPlayerResponse = \x7ba\x7d;"]
    jsonParse := fun _ => none
    getCues := fun _ => none
    decode := fun s => s
    fetch := fun _ => .ok "B" }

/-- Counterexample to C2 as stated: on a page where the marker is found but
the sliced JSON fails to parse, `fetchTranscript` does *not* reject — it
resolves with the minimal result. -/
theorem claim_C2_counterexample :
    (extBadJson.getScripts "B").find? (fun c => strIncludes c marker)
      = some "var ytInitialPlayerResponse = \x7ba\x7d;" ∧
    extBadJson.jsonParse
      (playerDataString "var ytInitialPlayerResponse = \x7ba\x7d;") = none ∧
    (fetchTranscript extBadJson 0 [] "u" "en").1
      = .ok (pageResponse extBadJson "u" "v" "B" []) := by
  refine ⟨by decide, rfl, by decide⟩

/-- Witness for the amended C2 at a concrete page and empty cache. -/
theorem claim_C2_parse_error_swallowed_witness :
    extractCaptionsRun extBadJson "B" "en"
      = (.error "Failed to parse caption data", []) ∧
    fetchTranscript extBadJson 0 [] "u" "en"
      = (.ok (pageResponse extBadJson "u" "v" "B" []),
         setEntry (cleanCache 0 []) "transcript_v_en"
           ⟨pageResponse extBadJson "u" "v" "B" [], 0⟩,
         ["u"]) := by
  have h := claim_C2_parse_error_swallowed extBadJson 0 [] "u" "en" "v" "B"
    "var ytInitialPlayerResponse = \x7ba\x7d;"
    (by decide) rfl (by decide) (by decide) rfl
  simpa using h

end YT

namespace YT

/-- Concrete environment whose caption XML yields no parseable cues at all
(the parser throws), while the caption pipeline itself succeeds. -/
def extCorrupt : Ext :=
  { videoIdOf := fun u => if u = "u" then some "v" else none
    titleOf := fun _ => none
    authorOf := fun _ => none
    channelIdOf := fun _ => none
    getScripts := fun _ => ["var ytInitialPlayerResponse = \x7ba\x7d;"]
    jsonParse := fun _ => some [⟨"en", "https://captions.example/x"⟩]
    getCues := fun _ => none
    decode := fun s => s
    fetch := fun _ => .ok "B" }

/-- C10.  `parseCaptions` is total: it returns a `TranscriptLine` list for
every input (a parser exception is absorbed by its `try/catch` into `[]`, and
an input with no cue elements yields `[]`); consequently, at the
`fetchTranscript` interface a successfully fetched but wholly corrupt caption
payload produces exactly the minimal `lines: []` response — indistinguishable
from a video with no captions. -/
theorem claim_C10_parseCaptions_total :
    (∀ (ext : Ext) (xml : String), ext.getCues xml = none →
      parseCaptions ext xml = []) ∧
    (∀ (ext : Ext) (xml : String), ext.getCues xml = some [] →
      parseCaptions ext xml = []) ∧
    (∀ (ext : Ext) (now : ℕ) (cache : Cache TranscriptResponse)
       (url langCode videoId videoPageBody captions : String)
       (fetched : List String),
      ext.videoIdOf url = some videoId →
      lookup (cleanCache now cache)
        ("transcript_" ++ videoId ++ "_" ++ langCode) = none →
      ext.fetch url = .ok videoPageBody →
      extractCaptionsRun ext videoPageBody langCode = (.ok captions, fetched) →
      ext.getCues captions = none →
      (fetchTranscript ext now cache url langCode).1
        = .ok (pageResponse ext url videoId videoPageBody [])) := by
  refine ⟨?_, ?_, ?_⟩
  · intro ext xml h
    unfold parseCaptions
    rw [h]
  · intro ext xml h
    unfold parseCaptions
    rw [h]
    rfl
  · intro ext now cache url langCode videoId videoPageBody captions fetched
      hid hmiss hfetch hcap hcorrupt
    have hlines : parseCaptions ext captions = [] := by
      unfold parseCaptions
      rw [hcorrupt]
    rw [fetchTranscript_miss_captions hid hmiss hfetch hcap, hlines]

/-- Witness for C10: a corrupt caption payload produces the same `lines: []`
response as a caption-free video. -/
theorem claim_C10_parseCaptions_total_witness :
    parseCaptions extCorrupt "X" = [] ∧
    (fetchTranscript extCorrupt 0 [] "u" "en").1
      = .ok (pageResponse extCorrupt "u" "v" "B" []) :=
  ⟨claim_C10_parseCaptions_total.1 extCorrupt "X" rfl,
   claim_C10_parseCaptions_total.2.2 extCorrupt 0 [] "u" "en" "v" "B" "B"
     ["https://captions.example/x"] (by decide) (by decide) rfl (by decide) rfl⟩

/-- Concrete environment whose caption XML parses to one well-formed cue
followed by one cue with a non-numeric `dur` attribute. -/
def extCueMix : Ext :=
  { videoIdOf := fun _ => none
    titleOf := fun _ => none
    authorOf := fun _ => none
    channelIdOf := fun _ => none
    getScripts := fun _ => []
    jsonParse := fun _ => none
    getCues := fun _ => some
      [⟨"a", some "1.5", some "0"⟩, ⟨"b", some "abc", some "2"⟩]
    decode := fun s => s
    fetch := fun _ => .error "" }

theorem parseFloat_one_point_five : parseFloat "1.5" = some (3 / 2) := by
  simp +decide [parseFloat, digitsVal, digitVal, parseExp]
  norm_num

theorem parseFloat_two : parseFloat "2" = some 2 := by
  simp +decide [parseFloat, digitsVal, digitVal, parseExp]

theorem parseFloat_zero : parseFloat "0" = some 0 := by
  simp +decide [parseFloat, digitsVal, digitVal, parseExp]

theorem attrMs_missing : attrMs none = some 0 := by
  unfold attrMs
  rw [show jsOrDefault none "0" = "0" from rfl, parseFloat_zero]
  simp [jsMul]

theorem attrMs_blank : attrMs (some "") = some 0 := by
  unfold attrMs
  rw [show jsOrDefault (some "") "0" = "0" from rfl, parseFloat_zero]
  simp [jsMul]

/-- Counterexample to C3 as stated: in a payload whose second cue carries the
non-numeric duration attribute `"abc"`, the sibling cue is still parsed
(duration 1500 ms), but the malformed cue's duration is `NaN`
(`parseFloat("abc") * 1000`), not `0` as the claim states. -/
theorem claim_C3_counterexample :
    (parseCaptions extCueMix "X").map TranscriptLine.duration
      = [some 1500, none] ∧
    (none : JSNum) ≠ some 0 := by
  constructor
  · show [attrMs (some "1.5"), attrMs (some "abc")] = [some 1500, none]
    rw [show attrMs (some "abc") = none from rfl]
    unfold attrMs
    rw [show jsOrDefault (some "1.5") "0" = "1.5" from rfl, parseFloat_one_point_five]
    simp [jsMul]
    norm_num
  · decide

/-- C3 (amended).  `parseCaptions` maps every cue independently — a malformed
cue never aborts parsing of its siblings — and for each cue the numeric
semantics of `parseFloat(attr || '0') * 1000` are: a missing or empty
attribute yields `0`; an attribute that parses as a number `q` of seconds
yields `q * 1000` milliseconds; a non-empty attribute with no numeric prefix
yields `NaN` (not `0`). -/
theorem claim_C3_cue_numeric_defaults
    (ext : Ext) (xml : String) (cues : List Cue)
    (h : ext.getCues xml = some cues) :
    (parseCaptions ext xml).length = cues.length ∧
    (∀ i : ℕ, (parseCaptions ext xml)[i]? = (cues[i]?).map fun cue =>
      ⟨ext.decode cue.textContent, attrMs cue.dur, attrMs cue.start⟩) ∧
    attrMs none = some 0 ∧
    attrMs (some "") = some 0 ∧
    (∀ (s : String) (q : ℚ), parseFloat s = some q →
      attrMs (some s) = some (q * 1000)) ∧
    (∀ s : String, s ≠ "" → parseFloat s = none → attrMs (some s) = none) := by
  refine ⟨?_, ?_, attrMs_missing, attrMs_blank, ?_, ?_⟩
  · unfold parseCaptions
    rw [h]
    exact List.length_map _ _
  · intro i
    unfold parseCaptions
    rw [h]
    exact List.getElem?_map _ _ _
  · intro s q hq
    by_cases hs : s = ""
    · rw [hs, show parseFloat "" = none from rfl] at hq
      exact Option.noConfusion hq
    · show jsMul (parseFloat (jsOrDefault (some s) "0")) 1000 = some (q * 1000)
      rw [show jsOrDefault (some s) "0" = if s = "" then "0" else s from rfl,
        if_neg hs, hq]
      rfl
  · intro s hs hnan
    show jsMul (parseFloat (jsOrDefault (some s) "0")) 1000 = none
    rw [show jsOrDefault (some s) "0" = if s = "" then "0" else s from rfl,
      if_neg hs, hnan]
    rfl

/-- Witness for the amended C3 at the concrete mixed cue list. -/
theorem claim_C3_cue_numeric_defaults_witness :
    (parseCaptions extCueMix "X").length = 2 ∧
    (parseCaptions extCueMix "X")[1]?
      = some ⟨"b", attrMs (some "abc"), attrMs (some "2")⟩ ∧
    attrMs none = some 0 ∧
    attrMs (some "abc") = none := by
  have h := claim_C3_cue_numeric_defaults extCueMix "X"
    [⟨"a", some "1.5", some "0"⟩, ⟨"b", some "abc", some "2"⟩] rfl
  refine ⟨h.1, ?_, h.2.2.1, h.2.2.2.2.2 "abc" (by decide) (by decide)⟩
  rw [h.2.1 1]
  rfl

end YT

namespace YT

/-- The selection policy exactly as the claim words it (refinement target):
first track with an exactly equal language code, else first track whose
language code contains the requested code, else the first track. -/
def specSelectTrack (captionTracks : List CaptionTrack) (langCode : String) :
    Option CaptionTrack :=
  (captionTracks.find? (fun t => t.languageCode = langCode)) <|>
  ((captionTracks.find? (fun t => strIncludes t.languageCode langCode)) <|>
   captionTracks.head?)

/-- Counterexample to C4 as stated: with the empty requested language code
and a track list containing a track whose language code is the empty string,
the claim's policy would pick that exactly matching track, but the code's
`if (langCode)` guard skips both matching phases for a falsy language code
and picks the first track instead. -/
theorem claim_C4_counterexample :
    selectTrack [⟨"es", "a"⟩, ⟨"", "b"⟩] "" = some ⟨"es", "a"⟩ ∧
    specSelectTrack [⟨"es", "a"⟩, ⟨"", "b"⟩] "" = some ⟨"", "b"⟩ ∧
    (⟨"es", "a"⟩ : CaptionTrack) ≠ ⟨"", "b"⟩ := by
  refine ⟨by decide, by decide, by decide⟩

/-- C4 (amended).  For every *non-empty* requested language code the code's
track selection implements exactly the claimed policy — first exact match,
else first substring match, else first track; for the empty requested code
the code skips both matching phases and picks the first track directly; on an
empty track list nothing is selected, and the caption pipeline then fails
with the `'No captions available'` error.  On the claim's own example,
requesting `"en"` among `[es, en-US, fr]` selects `en-US`. -/
theorem claim_C4_track_selection :
    (∀ (tracks : List CaptionTrack) (langCode : String), langCode ≠ "" →
      selectTrack tracks langCode = specSelectTrack tracks langCode) ∧
    (∀ tracks : List CaptionTrack, selectTrack tracks "" = tracks.head?) ∧
    (∀ langCode : String, selectTrack [] langCode = none) ∧
    selectTrack [⟨"es", "a"⟩, ⟨"en-US", "b"⟩, ⟨"fr", "c"⟩] "en"
      = some ⟨"en-US", "b"⟩ ∧
    (∀ (ext : Ext) (pageBody langCode content : String),
      (ext.getScripts pageBody).find? (fun c => strIncludes c marker)
        = some content →
      ext.jsonParse (playerDataString content) = some [] →
      extractCaptionsRun ext pageBody langCode
        = (.error "No captions available", [])) := by
  refine ⟨?_, ?_, selectTrack_nil, by decide,
    fun ext pageBody langCode content h1 h2 =>
      extractCaptionsRun_no_tracks h1 h2⟩
  · intro tracks langCode h
    unfold selectTrack specSelectTrack
    rw [if_pos h]
    cases hf : tracks.find? (fun t => t.languageCode = langCode) with
    | some t => simp
    | none =>
      cases hp : tracks.find? (fun t => strIncludes t.languageCode langCode) with
      | some t => simp
      | none => simp
  · intro tracks
    unfold selectTrack
    simp

/-- Witness for the amended C4 at the claim's own example inputs. -/
theorem claim_C4_track_selection_witness :
    selectTrack [⟨"es", "a"⟩, ⟨"en-US", "b"⟩, ⟨"fr", "c"⟩] "en"
      = specSelectTrack [⟨"es", "a"⟩, ⟨"en-US", "b"⟩, ⟨"fr", "c"⟩] "en" ∧
    selectTrack ([] : List CaptionTrack) "en" = none ∧
    extractCaptionsRun extNoTracks "B" "en"
      = (.error "No captions available", []) :=
  ⟨claim_C4_track_selection.1 _ "en" (by decide),
   claim_C4_track_selection.2.2.1 "en",
   claim_C4_track_selection.2.2.2.2 extNoTracks "B" "en"
     "var ytInitialPlayerResponse = \x7ba\x7d;" (by decide) rfl⟩

end YT

namespace YT

/-- C7.  Whenever `cleanCache` runs on a table holding more unexpired entries
than its max-entry bound (100 for the video-data table of `YouTubeService`,
50 for the summary table of `VideoAnalysisService`), it trims by write
timestamp, oldest first and regardless of insertion order, until exactly the
bound remain: afterwards the table has exactly `bound` entries, every
retained entry is one of the unexpired entries, and every removed unexpired
entry is at least as old as every retained one. -/
theorem claim_C7_eviction_oldest_first :
    (∀ (α : Type) (now : ℕ) (c : Cache α), NoDupKeys c →
      (cacheExpire CACHE_EXPIRY_MS now c).length > MAX_CACHE_ENTRIES →
      (cleanCache now c).length = MAX_CACHE_ENTRIES ∧
      (∀ p ∈ cleanCache now c, p ∈ cacheExpire CACHE_EXPIRY_MS now c) ∧
      (∀ p ∈ cacheExpire CACHE_EXPIRY_MS now c, p ∉ cleanCache now c →
        ∀ q ∈ cleanCache now c, p.2.timestamp ≤ q.2.timestamp)) ∧
    (∀ (α : Type) (now : ℕ) (c : Cache α), NoDupKeys c →
      (cacheExpire SUMMARY_CACHE_EXPIRY_MS now c).length
        > SUMMARY_MAX_CACHE_ENTRIES →
      (cleanSummaryCache now c).length = SUMMARY_MAX_CACHE_ENTRIES ∧
      (∀ p ∈ cleanSummaryCache now c,
        p ∈ cacheExpire SUMMARY_CACHE_EXPIRY_MS now c) ∧
      (∀ p ∈ cacheExpire SUMMARY_CACHE_EXPIRY_MS now c,
        p ∉ cleanSummaryCache now c →
        ∀ q ∈ cleanSummaryCache now c, p.2.timestamp ≤ q.2.timestamp)) := by
  constructor
  · intro α now c hnd h
    exact cacheTrim_spec (hnd.cacheExpire CACHE_EXPIRY_MS now) h
  · intro α now c hnd h
    exact cacheTrim_spec (hnd.cacheExpire SUMMARY_CACHE_EXPIRY_MS now) h

/-- A video-data table of 101 unexpired entries with distinct keys and
strictly increasing timestamps. -/
def bigVideoCache : Cache String :=
  (List.range 101).map fun i => (toString i, ⟨"d", i⟩)

/-- A summary table of 51 unexpired entries. -/
def bigSummaryCache : Cache String :=
  (List.range 51).map fun i => (toString i, ⟨"s", i⟩)

/-- Witness for C7 on concrete over-full tables. -/
theorem claim_C7_eviction_oldest_first_witness :
    (cleanCache 0 bigVideoCache).length = MAX_CACHE_ENTRIES ∧
    (cleanSummaryCache 0 bigSummaryCache).length = SUMMARY_MAX_CACHE_ENTRIES :=
  ⟨(claim_C7_eviction_oldest_first.1 String 0 bigVideoCache
      (by unfold NoDupKeys; decide) (by decide)).1,
   (claim_C7_eviction_oldest_first.2 String 0 bigSummaryCache
      (by unfold NoDupKeys; decide) (by decide)).1⟩

end YT

namespace YT

theorem setEntry_eq_append_of_absent {α : Type} {mem : Cache α}
    {p : String × CacheEntry α} (h : p.1 ∉ mem.map Prod.fst) :
    setEntry mem p.1 p.2 = mem ++ [p] := by
  have : lookup mem p.1 = none := by
    rw [lookup_eq_none_iff]
    intro q hq hqk
    exact h (hqk ▸ List.mem_map_of_mem Prod.fst hq)
  rw [setEntry_of_lookup_none _ this]

theorem loadCacheG_eq_append {α : Type} (expiry now : ℕ) :
    ∀ (persisted mem : Cache α), NoDupKeys (mem ++ persisted) →
    loadCacheG expiry now mem persisted
      = mem ++ persisted.filter
          (fun p => p.2.timestamp ≠ 0 ∧ now - p.2.timestamp < expiry) := by
  intro persisted
  induction persisted with
  | nil => intro mem _; simp [loadCacheG]
  | cons p rest ih =>
    intro mem hnd
    have hpk : p.1 ∉ mem.map Prod.fst := by
      unfold NoDupKeys at hnd
      rw [List.map_append] at hnd
      have hdisj := (List.nodup_append.mp hnd).2.2
      intro hmem
      exact hdisj hmem (by simp)
    by_cases hc : p.2.timestamp ≠ 0 ∧ now - p.2.timestamp < expiry
    · have hstep : loadCacheG expiry now mem (p :: rest)
          = loadCacheG expiry now (mem ++ [p]) rest := by
        unfold loadCacheG
        simp only [List.foldl_cons, if_pos hc,
          setEntry_eq_append_of_absent hpk]
      rw [hstep, ih (mem ++ [p]) (by rwa [List.append_assoc, List.singleton_append]),
        List.filter_cons_of_pos (by simpa using hc), List.append_assoc,
        List.singleton_append]
    · have hstep : loadCacheG expiry now mem (p :: rest)
          = loadCacheG expiry now mem rest := by
        unfold loadCacheG
        simp only [List.foldl_cons, if_neg hc]
      have hnd' : NoDupKeys (mem ++ rest) := by
        have hsub : List.Sublist (mem ++ rest) (mem ++ p :: rest) :=
          (List.append_sublist_append_left mem).mpr
            ((List.Sublist.refl rest).cons p)
        exact hnd.sublist (hsub.map Prod.fst)
      rw [hstep, ih mem hnd', List.filter_cons_of_neg (by simpa using hc)]

/-- C8.  In a table with fewer entries than its size bound, an entry written
at time `T` is returned by a read (cleanup runs before every read) at any
time strictly before `T` plus the expiry window, and is absent from a read at
any time strictly after `T` plus the window; at startup, with the clock past
the expiry window, a persisted entry is restored into the empty in-memory
table exactly when its age is strictly less than the window — older ones are
silently dropped.  Instantiated by both tables: video data
(`expiry = 30 min`, `bound = 100`) and summaries (`24 h`, `50`). -/
theorem claim_C8_expiry_window
    {α : Type} (expiry bound T : ℕ) (c persisted : Cache α)
    (k : String) (d : α)
    (hnd : NoDupKeys c) (hndp : NoDupKeys persisted)
    (hlook : lookup c k = some ⟨d, T⟩) (hsize : c.length < bound) :
    (∀ now, now < T + expiry →
      lookup (cleanCacheG expiry bound now c) k = some ⟨d, T⟩) ∧
    (∀ now, now > T + expiry →
      lookup (cleanCacheG expiry bound now c) k = none) ∧
    (∀ now, expiry ≤ now →
      lookup (loadCacheG expiry now [] persisted) k
        = match lookup persisted k with
          | some e => if now - e.timestamp < expiry then some e else none
          | none => none) := by
  refine ⟨?_, ?_, ?_⟩
  · intro now hbefore
    unfold cleanCacheG
    have hkeep : lookup (cacheExpire expiry now c) k = some ⟨d, T⟩ := by
      apply lookup_filter_keep hlook
      simp only [decide_eq_true_eq, gt_iff_lt]
      omega
    have hexplen : (cacheExpire expiry now c).length ≤ c.length :=
      List.length_filter_le _ _
    rw [cacheTrim_of_length_le (le_trans hexplen (le_of_lt hsize))]
    exact hkeep
  · intro now hafter
    unfold cleanCacheG
    have hgone : lookup (cacheExpire expiry now c) k = none := by
      apply lookup_filter_none
      intro p hp hpk
      have hpe := eq_of_mem_of_lookup hnd hlook p hp hpk
      rw [hpe]
      simp only [decide_eq_false_iff_not, Decidable.not_not, gt_iff_lt]
      omega
    rw [lookup_eq_none_iff] at hgone ⊢
    intro p hp
    exact hgone p (cacheTrim_subset p hp)
  · intro now hclock
    rw [loadCacheG_eq_append expiry now persisted [] (by simpa using hndp)]
    rw [List.nil_append]
    cases hp : lookup persisted k with
    | some e =>
      by_cases hfresh : now - e.timestamp < expiry
      · by_cases hz : e.timestamp = 0
        · exfalso
          rw [hz] at hfresh
          omega
        · rw [lookup_filter_keep hp (by simp [hz, hfresh])]
          simp [hfresh]
      · rw [lookup_filter_none]
        · simp [hfresh]
        · intro p hpm hpk
          have hpe := eq_of_mem_of_lookup hndp hp p hpm hpk
          rw [hpe]
          simp [hfresh]
    | none =>
      rw [lookup_filter_none]
      rw [lookup_eq_none_iff] at hp
      intro p hpm hpk
      exact absurd hpk (hp p hpm)

/-- Witness for C8: a one-entry table written at `T = 10` with the video
table's parameters, read just before and just after expiry, and a two-entry
persisted table reloaded at startup. -/
theorem claim_C8_expiry_window_witness :
    lookup (cleanCacheG CACHE_EXPIRY_MS MAX_CACHE_ENTRIES
      (10 + CACHE_EXPIRY_MS - 1) [("k", ⟨"d", 10⟩)]) "k" = some ⟨"d", 10⟩ ∧
    lookup (cleanCacheG CACHE_EXPIRY_MS MAX_CACHE_ENTRIES
      (10 + CACHE_EXPIRY_MS + 1) [("k", ⟨"d", 10⟩)]) "k" = none ∧
    lookup (loadCacheG CACHE_EXPIRY_MS (10 + CACHE_EXPIRY_MS - 1) []
        [("k", ⟨"d", 10⟩)]) "k"
      = match lookup [("k", (⟨"d", 10⟩ : CacheEntry String))] "k" with
        | some e => if (10 + CACHE_EXPIRY_MS - 1) - e.timestamp < CACHE_EXPIRY_MS
            then some e else none
        | none => none := by
  have h := claim_C8_expiry_window CACHE_EXPIRY_MS MAX_CACHE_ENTRIES
    10 [("k", ⟨"d", 10⟩)] [("k", ⟨"d", 10⟩)] "k" "d"
    (by unfold NoDupKeys; decide) (by unfold NoDupKeys; decide)
    (by decide) (by decide)
  exact ⟨h.1 (10 + CACHE_EXPIRY_MS - 1) (by decide),
    h.2.1 (10 + CACHE_EXPIRY_MS + 1) (by decide),
    h.2.2 (10 + CACHE_EXPIRY_MS - 1) (by decide)⟩

end YT


namespace YT

/-! ## Lemmas for `getVideoId` -/

def plainChar (c : Char) : Bool := c.isAlphanum ∨ c = '-' ∨ c = '_'

theorem stringMk_toList (s : String) : String.mk s.toList = s := by cases s; rfl

theorem toList_append (a b : String) : (a ++ b).toList = a.toList ++ b.toList := by
  cases a; cases b; rfl

theorem plainChar_ne {c x : Char} (h : plainChar c = true)
    (hx : plainChar x = false) : c ≠ x := by
  intro he
  rw [he, hx] at h
  exact Bool.noConfusion h

theorem takeWhile_all {p : Char → Bool} :
    ∀ {l : List Char}, (∀ c ∈ l, p c = true) → l.takeWhile p = l := by
  intro l
  induction l with
  | nil => intro _; rfl
  | cons c t ih =>
    intro h
    rw [List.takeWhile_cons, if_pos (h c (List.mem_cons_self _ _)),
      ih fun x hx => h x (List.mem_cons_of_mem _ hx)]

theorem dropWhile_all {p : Char → Bool} :
    ∀ {l : List Char}, (∀ c ∈ l, p c = true) → l.dropWhile p = [] := by
  intro l
  induction l with
  | nil => intro _; rfl
  | cons c t ih =>
    intro h
    rw [List.dropWhile_cons, if_pos (h c (List.mem_cons_self _ _))]
    exact ih fun x hx => h x (List.mem_cons_of_mem _ hx)

theorem takeWhile_append_stop {p : Char → Bool} {x : Char} :
    ∀ {l : List Char} {m : List Char}, (∀ c ∈ l, p c = true) → p x = false →
      (l ++ x :: m).takeWhile p = l := by
  intro l
  induction l with
  | nil =>
    intro m _ hx
    rw [List.nil_append, List.takeWhile_cons, if_neg (by simp [hx])]
  | cons c t ih =>
    intro m h hx
    rw [List.cons_append, List.takeWhile_cons,
      if_pos (h c (List.mem_cons_self _ _)),
      ih (fun y hy => h y (List.mem_cons_of_mem _ hy)) hx]

theorem dropWhile_append_stop {p : Char → Bool} {x : Char} :
    ∀ {l : List Char} {m : List Char}, (∀ c ∈ l, p c = true) → p x = false →
      (l ++ x :: m).dropWhile p = x :: m := by
  intro l
  induction l with
  | nil =>
    intro m _ hx
    rw [List.nil_append, List.dropWhile_cons, if_neg (by simp [hx])]
  | cons c t ih =>
    intro m h hx
    rw [List.cons_append, List.dropWhile_cons,
      if_pos (h c (List.mem_cons_self _ _))]
    exact ih (fun y hy => h y (List.mem_cons_of_mem _ hy)) hx

theorem isPrefixOf_append_self : ∀ (l t : List Char), l.isPrefixOf (l ++ t) = true := by
  intro l
  induction l with
  | nil => intro t; cases t <;> rfl
  | cons c cs ih =>
    intro t
    rw [List.cons_append]
    simp [List.isPrefixOf, ih]

theorem schemeSplit_https (r : List Char) :
    schemeSplit ("https://".toList ++ r) = some r := by
  unfold schemeSplit
  rw [if_pos (isPrefixOf_append_self _ _)]
  rw [show (8 : ℕ) = ("https://".toList).length from rfl, List.drop_left]

theorem plainChar_not_hostEnd {c : Char} (h : plainChar c = true) :
    (decide ¬ hostEnd c = true) = true := by
  have h1 : c ≠ '/' := plainChar_ne h (by decide)
  have h2 : c ≠ '?' := plainChar_ne h (by decide)
  have h3 : c ≠ '#' := plainChar_ne h (by decide)
  simp [hostEnd, h1, h2, h3]

theorem plainChar_not_pathEnd {c : Char} (h : plainChar c = true) :
    (decide ¬ pathEnd c = true) = true := by
  have h2 : c ≠ '?' := plainChar_ne h (by decide)
  have h3 : c ≠ '#' := plainChar_ne h (by decide)
  simp [pathEnd, h2, h3]

theorem parseURL_short (i : String) (hplain : ∀ c ∈ i.toList, plainChar c = true) :
    parseURL ("https://youtu.be/" ++ i)
      = some ⟨"youtu.be", String.mk ('/' :: i.toList), ""⟩ := by
  have h0 : ("https://youtu.be/" ++ i).toList
      = "https://".toList ++ ("youtu.be".toList ++ '/' :: i.toList) := by
    rw [toList_append]
    rfl
  unfold parseURL
  rw [h0, schemeSplit_https]
  simp only []
  rw [takeWhile_append_stop (by decide) (by decide),
    dropWhile_append_stop (by decide) (by decide)]
  rw [if_neg (by decide)]
  have hpath : pathOf ('/' :: i.toList)
      = '/' :: i.toList := by
    unfold pathOf
    rw [List.takeWhile_cons, if_pos (by decide)]
    rw [takeWhile_all fun c hc => plainChar_not_pathEnd (hplain c hc)]
    rfl
  have hafter : ('/' :: i.toList).dropWhile (fun c => ¬ pathEnd c) = [] := by
    rw [List.dropWhile_cons, if_pos (by decide)]
    exact dropWhile_all fun c hc => plainChar_not_pathEnd (hplain c hc)
  rw [hpath, hafter]
  rfl

end YT
namespace YT

theorem getVideoId_short (i : String) (hplain : ∀ c ∈ i.toList, plainChar c = true) :
    getVideoId ("https://youtu.be/" ++ i) = i := by
  unfold getVideoId
  rw [parseURL_short i hplain]
  simp only []
  rw [if_neg (by decide), if_pos (by decide)]
  rw [show (String.mk ('/' :: i.toList)).toList = '/' :: i.toList from rfl]
  rw [show ('/' :: i.toList).drop 1 = i.toList from rfl, stringMk_toList]

theorem splitAmp_cons (c : Char) (t : List Char) :
    splitAmp (c :: t)
      = if c = '&' then [] :: splitAmp t
        else match splitAmp t with
          | [] => [[c]]
          | seg :: rest => (c :: seg) :: rest := rfl

theorem splitAmp_no_sep :
    ∀ {l : List Char}, '&' ∉ l → splitAmp l = [l] := by
  intro l
  induction l with
  | nil => intro _; rfl
  | cons c t ih =>
    intro h
    rw [splitAmp_cons,
      if_neg (by intro hc; exact h (hc ▸ List.mem_cons_self _ _)),
      ih fun hm => h (List.mem_cons_of_mem _ hm)]

theorem splitAmp_append_sep {m : List Char} :
    ∀ {l : List Char}, '&' ∉ l → splitAmp (l ++ '&' :: m) = l :: splitAmp m := by
  intro l
  induction l with
  | nil =>
    intro _
    rw [List.nil_append, splitAmp_cons, if_pos rfl]
  | cons c t ih =>
    intro h
    rw [List.cons_append, splitAmp_cons,
      if_neg (by intro hc; exact h (hc ▸ List.mem_cons_self _ _)),
      ih fun hm => h (List.mem_cons_of_mem _ hm)]

theorem formDecode_plain :
    ∀ {l : List Char}, (∀ c ∈ l, plainChar c = true) → formDecode l = l := by
  intro l
  induction l with
  | nil => intro _; simp [formDecode]
  | cons c t ih =>
    intro h
    unfold formDecode
    rw [if_neg (plainChar_ne (h c (List.mem_cons_self _ _)) (by decide)),
      if_neg (plainChar_ne (h c (List.mem_cons_self _ _)) (by decide)),
      ih fun x hx => h x (List.mem_cons_of_mem _ hx)]

theorem searchParamsGet_v (i : String) (r : List Char)
    (hplain : ∀ c ∈ i.toList, plainChar c = true)
    (hr : r = [] ∨ ∃ m, r = '&' :: m) :
    searchParamsGet (String.mk ('v' :: '=' :: i.toList ++ r)) "v"
      = some i := by
  have hnamp : '&' ∉ 'v' :: '=' :: i.toList := by
    intro hm
    rcases hm with _ | ⟨_, hm⟩
    rcases hm with _ | ⟨_, hm⟩
    exact absurd rfl (plainChar_ne (hplain _ hm) (by decide))
  have hsegs : ∃ z, splitAmp ('v' :: '=' :: i.toList ++ r)
      = ('v' :: '=' :: i.toList) :: z := by
    rcases hr with rfl | ⟨m, rfl⟩
    · rw [List.append_nil, splitAmp_no_sep hnamp]
      exact ⟨[], rfl⟩
    · rw [splitAmp_append_sep hnamp]
      exact ⟨splitAmp m, rfl⟩
  obtain ⟨z, hz⟩ := hsegs
  have htake : ('v' :: '=' :: i.toList).takeWhile (fun c => c ≠ '=') = ['v'] := by
    rw [List.takeWhile_cons, if_pos (by decide), List.takeWhile_cons,
      if_neg (by decide)]
  have hdrop : ('v' :: '=' :: i.toList).dropWhile (fun c => c ≠ '=')
      = '=' :: i.toList := by
    rw [List.dropWhile_cons, if_pos (by decide), List.dropWhile_cons,
      if_neg (by decide)]
  unfold searchParamsGet
  rw [show (String.mk ('v' :: '=' :: i.toList ++ r)).toList
    = 'v' :: '=' :: i.toList ++ r from rfl]
  rw [hz]
  simp only [List.filter_cons]
  rw [if_pos (by simp)]
  simp only [List.map_cons]
  rw [List.find?_cons_of_pos _ (by
    show decide (String.mk (formDecode (('v' :: '=' :: i.toList).takeWhile
      (fun c => c ≠ '='))) = "v") = true
    rw [htake, formDecode_plain (by decide)]
    decide)]
  rw [Option.map_some']
  congr 1
  rw [hdrop, show ('=' :: i.toList).drop 1 = i.toList from rfl,
    formDecode_plain hplain, stringMk_toList]

theorem plainChar_not_hash {c : Char} (h : plainChar c = true) :
    (decide (c ≠ '#')) = true := by
  have hne := plainChar_ne h (show plainChar '#' = false by decide)
  simp [hne]

theorem parseURL_watch (i : String) (r : List Char)
    (hplain : ∀ c ∈ i.toList, plainChar c = true)
    (hnohash : ∀ c ∈ r, c ≠ '#') :
    parseURL ("https://www.youtube.com/watch?v=" ++ i ++ String.mk r)
      = some ⟨"www.youtube.com", "/watch",
          String.mk ('v' :: '=' :: i.toList ++ r)⟩ := by
  have hq : ∀ c ∈ 'v' :: '=' :: i.toList ++ r, (decide (c ≠ '#')) = true := by
    intro c hc
    rcases hc with _ | ⟨_, hc⟩
    · decide
    rcases hc with _ | ⟨_, hc⟩
    · decide
    rcases List.mem_append.mp hc with hci | hcr
    · exact plainChar_not_hash (hplain c hci)
    · simp [hnohash c hcr]
  have h0 : ("https://www.youtube.com/watch?v=" ++ i ++ String.mk r).toList
      = "https://".toList ++ ("www.youtube.com".toList
        ++ '/' :: ("watch".toList ++ '?' :: ('v' :: '=' :: i.toList ++ r))) := by
    rw [toList_append, toList_append]
    rfl
  unfold parseURL
  rw [h0, schemeSplit_https]
  simp only []
  rw [takeWhile_append_stop (by decide) (by decide),
    dropWhile_append_stop (by decide) (by decide)]
  rw [if_neg (by decide)]
  have hpath : pathOf ('/' :: ("watch".toList ++ '?'
      :: ('v' :: '=' :: i.toList ++ r))) = "/watch".toList := by
    unfold pathOf
    show List.takeWhile (fun c => ¬ pathEnd c) (_ :: _) = _
    rw [List.takeWhile_cons, if_pos (by decide),
      takeWhile_append_stop (by decide) (by decide)]
    rfl
  have hafter : ('/' :: ("watch".toList ++ '?'
        :: ('v' :: '=' :: i.toList ++ r))).dropWhile (fun c => ¬ pathEnd c)
      = '?' :: ('v' :: '=' :: i.toList ++ r) := by
    rw [List.dropWhile_cons, if_pos (by decide),
      dropWhile_append_stop (by decide) (by decide)]
  rw [hpath, hafter]
  have hquery : queryOf ('?' :: ('v' :: '=' :: i.toList ++ r))
      = 'v' :: '=' :: i.toList ++ r := by
    unfold queryOf
    show List.takeWhile (fun c => c ≠ '#') _ = _
    exact takeWhile_all hq
  rw [hquery]
  rfl

theorem getVideoId_watch (i : String) (r : List Char)
    (hplain : ∀ c ∈ i.toList, plainChar c = true)
    (hr : r = [] ∨ ∃ m, r = '&' :: m)
    (hnohash : ∀ c ∈ r, c ≠ '#') :
    getVideoId ("https://www.youtube.com/watch?v=" ++ i ++ String.mk r) = i := by
  unfold getVideoId
  rw [parseURL_watch i r hplain hnohash]
  simp only []
  rw [if_neg (by decide), if_neg (by decide)]
  rw [searchParamsGet_v i r hplain hr]
  rfl

theorem getVideoId_other_host (u : String) (o : UrlObj)
    (h : parseURL u = some o)
    (h1 : o.hostname ≠ "youtube.com") (h2 : o.hostname ≠ "www.youtube.com")
    (h3 : o.hostname ≠ "youtu.be") (h4 : o.hostname ≠ "www.youtu.be") :
    getVideoId u = "" := by
  unfold getVideoId
  rw [h]
  simp only []
  rw [if_pos (by
    intro hc
    rcases hc with hc | hc | hc | hc
    exacts [h1 hc, h2 hc, h3 hc, h4 hc])]

theorem getVideoId_malformed (u : String) (h : parseURL u = none) :
    getVideoId u = "" := by
  unfold getVideoId
  rw [h]

end YT

namespace YT

/-- C5.  `getVideoId` returns exactly the id for the accepted short-link form
`https://youtu.be/{id}` (single plain path segment) and for the canonical
form `https://www.youtube.com/watch?v={id}` with any `&`-led parameter tail;
for every URL the model parses whose host is none of the four platform hosts
it returns the empty string, and for every string the URL parser rejects it
returns the empty string instead of throwing (`getVideoId` is total). -/
theorem claim_C5_getVideoId_extraction :
    (∀ i : String, (∀ c ∈ i.toList, plainChar c = true) →
      getVideoId ("https://youtu.be/" ++ i) = i) ∧
    (∀ (i : String) (r : List Char), (∀ c ∈ i.toList, plainChar c = true) →
      (r = [] ∨ ∃ m, r = '&' :: m) → (∀ c ∈ r, c ≠ '#') →
      getVideoId ("https://www.youtube.com/watch?v=" ++ i ++ String.mk r) = i) ∧
    (∀ (u : String) (o : UrlObj), parseURL u = some o →
      o.hostname ≠ "youtube.com" → o.hostname ≠ "www.youtube.com" →
      o.hostname ≠ "youtu.be" → o.hostname ≠ "www.youtu.be" →
      getVideoId u = "") ∧
    (∀ u : String, parseURL u = none → getVideoId u = "") :=
  ⟨getVideoId_short, getVideoId_watch, getVideoId_other_host, getVideoId_malformed⟩

/-- Witness for C5 on concrete URLs of each shape. -/
theorem claim_C5_getVideoId_extraction_witness :
    getVideoId "https://youtu.be/dQw4w9WgXcQ" = "dQw4w9WgXcQ" ∧
    getVideoId "https://www.youtube.com/watch?v=dQw4w9WgXcQ&t=10s"
      = "dQw4w9WgXcQ" ∧
    getVideoId "https://example.com/watch?v=dQw4w9WgXcQ" = "" ∧
    getVideoId "notaurl" = "" := by
  refine ⟨claim_C5_getVideoId_extraction.1 "dQw4w9WgXcQ" (by decide), ?_,
    claim_C5_getVideoId_extraction.2.2.1 "https://example.com/watch?v=dQw4w9WgXcQ"
      ⟨"example.com", "/watch", "v=dQw4w9WgXcQ"⟩ (by decide)
      (by decide) (by decide) (by decide) (by decide),
    claim_C5_getVideoId_extraction.2.2.2 "notaurl" (by decide)⟩
  exact claim_C5_getVideoId_extraction.2.1 "dQw4w9WgXcQ" "&t=10s".toList
    (by decide) (Or.inr ⟨"t=10s".toList, rfl⟩) (by decide)

end YT

namespace YT

/-! ## Lemmas for the request queue -/

theorem perm_dispatch_shape (a b c : List ℕ) (x : ℕ) :
    List.Perm (a ++ (b ++ [x]) ++ c) ((x :: a) ++ b ++ c) := by
  rw [List.append_assoc]
  refine List.Perm.trans
    (List.Perm.append_left a
      (List.Perm.append_right c (List.perm_append_singleton x b))) ?_
  rw [List.cons_append]
  refine List.Perm.trans List.perm_middle ?_
  rw [List.cons_append, List.cons_append, List.append_assoc]

theorem perm_settle_shape (a e c : List ℕ) (x : ℕ) :
    List.Perm (a ++ e ++ (c ++ [x])) (a ++ (x :: e) ++ c) := by
  rw [List.append_assoc, ← List.append_assoc e c [x]]
  refine List.Perm.trans
    (List.Perm.append_left a (List.perm_append_singleton x (e ++ c))) ?_
  rw [List.append_assoc]
  exact List.Perm.refl _

/-- Inductive invariant of the queue machinery: `activeRequests` counts the
in-flight fetches, never exceeds the concurrency cap, and together the
waiting, in-flight and settled requests are exactly the `N` enqueued ones. -/
def QInv (N : ℕ) (s : QState) : Prop :=
  s.activeRequests = s.inflight.length ∧
  s.activeRequests ≤ MAX_CONCURRENT_REQUESTS ∧
  List.Perm (s.waiting ++ s.inflight ++ s.settled) (List.range N)

theorem qinv_init (N : ℕ) : QInv N (initQState N) := by
  refine ⟨rfl, ?_, ?_⟩
  · show (0 : ℕ) ≤ MAX_CONCURRENT_REQUESTS
    decide
  · simp [initQState]

theorem qinv_step {N : ℕ} {s t : QState} (hi : QInv N s) (hs : QStep s t) :
    QInv N t := by
  obtain ⟨h1, h2, h3⟩ := hi
  cases hs with
  | begin hq hp => exact ⟨h1, h2, h3⟩
  | dispatch r rest hw hp ha =>
    refine ⟨by simp [h1], ha, ?_⟩
    refine List.Perm.trans ((perm_dispatch_shape _ _ _ _).trans ?_) h3
    rw [hw]
  | poll hp ha => exact ⟨h1, h2, h3⟩
  | settle r hr =>
    refine ⟨?_, le_trans (Nat.sub_le _ _) h2, ?_⟩
    · rw [h1, List.length_erase_of_mem hr]
    · refine List.Perm.trans ((perm_settle_shape _ _ _ _).trans ?_) h3
      have := List.perm_cons_erase hr
      exact List.Perm.append_right s.settled
        (List.Perm.append_left s.waiting this.symm)
  | finish hw hp => exact ⟨h1, h2, h3⟩

theorem qreachable_inv {N : ℕ} {s : QState} (h : QReachable N s) : QInv N s := by
  induction h with
  | refl => exact qinv_init N
  | tail _ hstep ih => exact qinv_step ih hstep

/-- From any state satisfying the invariant, the machinery can keep stepping
until every request has settled. -/
theorem qsteps_drain {N : ℕ} :
    ∀ (m : ℕ) (s : QState), 2 * s.waiting.length + s.inflight.length ≤ m →
      QInv N s →
      ∃ t, QSteps s t ∧ t.waiting = [] ∧ t.inflight = [] ∧
        List.Perm t.settled (List.range N) := by
  intro m
  induction m with
  | zero =>
    intro s hm hi
    have hw : s.waiting = [] := List.eq_nil_of_length_eq_zero (by omega)
    have hf : s.inflight = [] := List.eq_nil_of_length_eq_zero (by omega)
    refine ⟨s, Relation.ReflTransGen.refl, hw, hf, ?_⟩
    have h3 := hi.2.2
    rw [hw, hf] at h3
    simpa using h3
  | succ m ih =>
    intro s hm hi
    cases hf : s.inflight with
    | cons r rest' =>
      have hr : r ∈ s.inflight := by
        rw [hf]
        exact List.mem_cons_self _ _
      have hstep : QStep s { s with inflight := s.inflight.erase r
                                    settled := s.settled ++ [r]
                                    activeRequests := s.activeRequests - 1 } :=
        QStep.settle s r hr
      have hm1 : 2 * s.waiting.length + (s.inflight.erase r).length ≤ m := by
        rw [List.length_erase_of_mem hr, hf]
        rw [hf] at hm
        simp only [List.length_cons] at hm ⊢
        omega
      obtain ⟨t, hts, h1, h2, h3⟩ := ih _ hm1 (qinv_step hi hstep)
      exact ⟨t, Relation.ReflTransGen.head hstep hts, h1, h2, h3⟩
    | nil =>
      cases hw : s.waiting with
      | nil =>
        refine ⟨s, Relation.ReflTransGen.refl, hw, hf, ?_⟩
        have h3 := hi.2.2
        rw [hw, hf] at h3
        simpa using h3
      | cons w rest =>
        have hact : s.activeRequests = 0 := by
          rw [hi.1, hf]
          rfl
        have halt : s.activeRequests < MAX_CONCURRENT_REQUESTS := by
          rw [hact]
          decide
        have hmw : 2 * rest.length + (s.inflight ++ [w]).length ≤ m := by
          rw [hw, hf] at hm
          simp only [List.length_cons, List.length_append,
            List.length_singleton, List.length_nil, hf] at hm ⊢
          omega
        cases hp : s.processingQueue with
        | true =>
          have hstep : QStep s { s with waiting := rest
                                        inflight := s.inflight ++ [w]
                                        activeRequests := s.activeRequests + 1 } :=
            QStep.dispatch s w rest hw hp halt
          obtain ⟨t, hts, h1, h2, h3⟩ := ih _ hmw (qinv_step hi hstep)
          exact ⟨t, Relation.ReflTransGen.head hstep hts, h1, h2, h3⟩
        | false =>
          have hstep0 : QStep s { s with processingQueue := true } :=
            QStep.begin s (by rw [hw]; simp) hp
          have hstep1 : QStep { s with processingQueue := true }
              { s with processingQueue := true
                       waiting := rest
                       inflight := s.inflight ++ [w]
                       activeRequests := s.activeRequests + 1 } :=
            QStep.dispatch _ w rest hw rfl halt
          obtain ⟨t, hts, h1, h2, h3⟩ := ih _ hmw
            (qinv_step (qinv_step hi hstep0) hstep1)
          exact ⟨t, Relation.ReflTransGen.head hstep0
            (Relation.ReflTransGen.head hstep1 hts), h1, h2, h3⟩

end YT

namespace YT

/-- C9.  Concurrency discipline of the request queue, over the step
relation `QStep` that interleaves the drain loop, its 100 ms polls and fetch
settlements: (safety) in every state reachable from `N` simultaneous
enqueues, at most 2 (`MAX_CONCURRENT_REQUESTS`) fetches are in flight and
the `activeRequests` counter never exceeds the cap; (liveness, as
reachability of settlement — the event loop always eventually runs the
enabled settlement and drain steps) from every reachable state the machinery
reaches a state in which the queue and the in-flight set are empty and the
settled requests are exactly the `N` enqueued ones. -/
theorem claim_C9_queue_cap_and_settlement (N : ℕ) :
    (∀ s : QState, QReachable N s →
      s.activeRequests ≤ MAX_CONCURRENT_REQUESTS ∧
      s.inflight.length ≤ MAX_CONCURRENT_REQUESTS) ∧
    (∀ s : QState, QReachable N s →
      ∃ t, QSteps s t ∧ t.waiting = [] ∧ t.inflight = [] ∧
        List.Perm t.settled (List.range N) ∧ ∀ i < N, i ∈ t.settled) := by
  constructor
  · intro s hs
    obtain ⟨h1, h2, _⟩ := qreachable_inv hs
    exact ⟨h2, h1 ▸ h2⟩
  · intro s hs
    obtain ⟨t, hts, h1, h2, h3⟩ :=
      qsteps_drain (2 * s.waiting.length + s.inflight.length) s le_rfl
        (qreachable_inv hs)
    refine ⟨t, hts, h1, h2, h3, ?_⟩
    intro i hi
    exact h3.mem_iff.mpr (List.mem_range.mpr hi)

/-- Witness for C9 at `N = 5`, applied at the initial state. -/
theorem claim_C9_queue_cap_and_settlement_witness :
    ((initQState 5).activeRequests ≤ MAX_CONCURRENT_REQUESTS ∧
      (initQState 5).inflight.length ≤ MAX_CONCURRENT_REQUESTS) ∧
    (∃ t, QSteps (initQState 5) t ∧ t.waiting = [] ∧ t.inflight = [] ∧
      List.Perm t.settled (List.range 5) ∧ ∀ i < 5, i ∈ t.settled) :=
  ⟨(claim_C9_queue_cap_and_settlement 5).1 (initQState 5)
      Relation.ReflTransGen.refl,
   (claim_C9_queue_cap_and_settlement 5).2 (initQState 5)
      Relation.ReflTransGen.refl⟩

end YT
